import Mathlib

/-!
# Verification of the `foliconf` configuration-schema generator

Shallow embedding of `src/foliconf/__init__.py` and proofs about it.

Conventions used throughout:

* Python strings are Lean `String`s; Python's lexicographic string
  comparison by code point is modelled by `pyLtS` / `pyLeS` below.
* Python's stable `sorted` is modelled by Mathlib's `List.insertionSort`,
  which is stable in the same sense (elements whose keys compare equal
  keep their original relative order).
* Python `dict`s are modelled as ordered association lists
  (`List (String × β)`) with `dinsert` for `d[k] = v` (update-in-place
  keeps the key's position, a fresh key is appended at the end — exactly
  CPython's insertion-ordered dict semantics) and `List.lookup` for reads.
* `"x.y".split(".")` and `".".join(l)` are modelled by `splitDots` and
  `joinDots`, written over the underlying character lists.
* Fallible Python code (AttributeError / TypeError / raised ValueError)
  is modelled with `Option` / explicit error results.
-/

/-! ## Python string comparison (lexicographic by code point) -/

/-- Python's `<` on strings, at the level of character lists:
lexicographic comparison by code point. -/
def pyLtL : List Char → List Char → Bool
  | _, [] => false
  | [], _ :: _ => true
  | a :: as, b :: bs =>
    if a.toNat < b.toNat then true
    else if b.toNat < a.toNat then false
    else pyLtL as bs

/-- Python's `<` on strings. -/
def pyLtS (a b : String) : Bool := pyLtL a.data b.data

/-- Python's `<=` on strings (total order: `a <= b ↔ ¬ b < a`). -/
def pyLeS (a b : String) : Bool := ! pyLtS b a

theorem pyLtL_irrefl : ∀ l : List Char, pyLtL l l = false := by
  intro l
  induction l with
  | nil => rfl
  | cons a as ih => simp [pyLtL, ih]

theorem pyLtL_cons_iff {x y : Char} {xs ys : List Char} :
    pyLtL (x :: xs) (y :: ys) = true ↔
      (x.toNat < y.toNat ∨ (x.toNat = y.toNat ∧ pyLtL xs ys = true)) := by
  simp only [pyLtL]
  by_cases h1 : x.toNat < y.toNat
  · simp [h1]
  · by_cases h2 : y.toNat < x.toNat
    · simp [h1, h2]
      omega
    · simp [h1, h2]
      omega

theorem char_toNat_inj {a b : Char} (h : a.toNat = b.toNat) : a = b :=
  Char.ofNat_toNat a ▸ Char.ofNat_toNat b ▸ congrArg Char.ofNat h

theorem pyLtL_trans : ∀ {a b c : List Char},
    pyLtL a b = true → pyLtL b c = true → pyLtL a c = true := by
  intro a
  induction a with
  | nil =>
    intro b c hab hbc
    cases b with
    | nil => simp [pyLtL] at hab
    | cons y ys =>
      cases c with
      | nil => simp [pyLtL] at hbc
      | cons z zs => simp [pyLtL]
  | cons x xs ih =>
    intro b c hab hbc
    cases b with
    | nil => simp [pyLtL] at hab
    | cons y ys =>
      cases c with
      | nil => simp [pyLtL] at hbc
      | cons z zs =>
        rw [pyLtL_cons_iff] at hab hbc ⊢
        rcases hab with h1 | ⟨h1, h1'⟩
        · rcases hbc with h2 | ⟨h2, _⟩
          · left; omega
          · left; omega
        · rcases hbc with h2 | ⟨h2, h2'⟩
          · left; omega
          · right
            exact ⟨by omega, ih h1' h2'⟩

theorem pyLtL_eq_of_not : ∀ {a b : List Char},
    pyLtL a b = false → pyLtL b a = false → a = b := by
  intro a
  induction a with
  | nil =>
    intro b hab _
    cases b with
    | nil => rfl
    | cons y ys => simp [pyLtL] at hab
  | cons x xs ih =>
    intro b hab hba
    cases b with
    | nil => simp [pyLtL] at hba
    | cons y ys =>
      have hab' : ¬ pyLtL (x :: xs) (y :: ys) = true := by simp [hab]
      have hba' : ¬ pyLtL (y :: ys) (x :: xs) = true := by simp [hba]
      rw [pyLtL_cons_iff] at hab' hba'
      push_neg at hab' hba'
      have hxy : x.toNat = y.toNat := by
        have h1 := hab'.1
        have h2 := hba'.1
        omega
      have htail : xs = ys := by
        apply ih
        · have := hab'.2 hxy
          simpa using this
        · have := hba'.2 hxy.symm
          simpa using this
      rw [char_toNat_inj hxy, htail]

theorem string_data_inj : ∀ {a b : String}, a.data = b.data → a = b := by
  intro a b h
  cases a
  cases b
  simp_all

theorem pyLeS_total (a b : String) : pyLeS a b = true ∨ pyLeS b a = true := by
  unfold pyLeS pyLtS
  by_cases h : pyLtL b.data a.data = true
  · right
    have h2 : pyLtL a.data b.data = false := by
      by_contra hc
      have hc' : pyLtL a.data b.data = true := by
        cases hh : pyLtL a.data b.data
        · exact absurd hh hc
        · rfl
      have := pyLtL_trans h hc'
      rw [pyLtL_irrefl] at this
      exact Bool.noConfusion this
    simp [h2]
  · left
    simp [Bool.not_eq_true] at h
    simp [h]

theorem pyLeS_trans {a b c : String} (h1 : pyLeS a b = true) (h2 : pyLeS b c = true) :
    pyLeS a c = true := by
  unfold pyLeS pyLtS at h1 h2 ⊢
  simp only [Bool.not_eq_true'] at h1 h2 ⊢
  cases hca : pyLtL c.data a.data with
  | false => rfl
  | true =>
    exfalso
    cases hbc : pyLtL b.data c.data with
    | true =>
      have hba := pyLtL_trans hbc hca
      rw [h1] at hba
      exact Bool.noConfusion hba
    | false =>
      have heq : b.data = c.data := pyLtL_eq_of_not hbc h2
      rw [← heq] at hca
      rw [h1] at hca
      exact Bool.noConfusion hca

theorem pyLeS_antisymm {a b : String} (h1 : pyLeS a b = true) (h2 : pyLeS b a = true) :
    a = b := by
  unfold pyLeS pyLtS at h1 h2
  simp only [Bool.not_eq_true'] at h1 h2
  exact string_data_inj (pyLtL_eq_of_not h2 h1)

theorem pyLeS_refl (a : String) : pyLeS a a = true := by
  unfold pyLeS pyLtS
  simp [pyLtL_irrefl]

/-! ## `".".join` and `"…".split(".")` -/

/-- `"…".split(".")` at the character-list level: CPython's `str.split`
with a one-character separator (`"".split(".") == [""]`, empty segments kept). -/
def splitChDot : List Char → List (List Char)
  | [] => [[]]
  | c :: cs =>
    if c = '.' then [] :: splitChDot cs
    else
      match splitChDot cs with
      | [] => [[c]]
      | g :: gs => (c :: g) :: gs

/-- `".".join` at the character-list level. -/
def joinChDot : List (List Char) → List Char
  | [] => []
  | [a] => a
  | a :: b :: r => a ++ '.' :: joinChDot (b :: r)

theorem splitChDot_ne_nil : ∀ l : List Char, splitChDot l ≠ [] := by
  intro l
  induction l with
  | nil => simp [splitChDot]
  | cons c cs ih =>
    simp only [splitChDot]
    by_cases h : c = '.'
    · simp [h]
    · simp only [h, if_false]
      cases hs : splitChDot cs with
      | nil => simp
      | cons g gs => simp

theorem joinChDot_splitChDot : ∀ l : List Char, joinChDot (splitChDot l) = l := by
  intro l
  induction l with
  | nil => rfl
  | cons c cs ih =>
    simp only [splitChDot]
    by_cases h : c = '.'
    · simp only [h, if_true]
      cases hs : splitChDot cs with
      | nil => exact absurd hs (splitChDot_ne_nil cs)
      | cons g gs =>
        rw [hs] at ih
        simp [joinChDot, ih]
    · simp only [h, if_false]
      cases hs : splitChDot cs with
      | nil => exact absurd hs (splitChDot_ne_nil cs)
      | cons g gs =>
        rw [hs] at ih
        cases gs with
        | nil =>
          simp [joinChDot] at ih ⊢
          rw [ih]
        | cons g2 gs2 =>
          simp [joinChDot] at ih ⊢
          exact ih

theorem splitChDot_no_dot : ∀ {l : List Char}, ('.') ∉ l → splitChDot l = [l] := by
  intro l
  induction l with
  | nil => intro _; rfl
  | cons c cs ih =>
    intro h
    have hc : c ≠ '.' := fun hh => h (hh ▸ List.mem_cons_self c cs)
    have hcs : ('.') ∉ cs := fun hh => h (List.mem_cons_of_mem c hh)
    simp only [splitChDot, hc, if_false]
    rw [ih hcs]

theorem splitChDot_append_dot : ∀ {a : List Char} (t : List Char), ('.') ∉ a →
    splitChDot (a ++ '.' :: t) = a :: splitChDot t := by
  intro a
  induction a with
  | nil => intro t _; simp [splitChDot]
  | cons c cs ih =>
    intro t h
    have hc : c ≠ '.' := fun hh => h (hh ▸ List.mem_cons_self c cs)
    have hcs : ('.') ∉ cs := fun hh => h (List.mem_cons_of_mem c hh)
    simp only [List.cons_append, splitChDot, hc, if_false, List.append_eq]
    rw [ih t hcs]

theorem splitChDot_joinChDot : ∀ {gs : List (List Char)}, gs ≠ [] →
    (∀ g ∈ gs, ('.') ∉ g) → splitChDot (joinChDot gs) = gs := by
  intro gs
  induction gs with
  | nil => intro h _; exact absurd rfl h
  | cons a rest ih =>
    intro _ hdot
    cases rest with
    | nil =>
      simp only [joinChDot]
      exact splitChDot_no_dot (hdot a (List.mem_cons_self a []))
    | cons b r =>
      simp only [joinChDot]
      rw [splitChDot_append_dot _ (hdot a (List.mem_cons_self a (b :: r)))]
      congr 1
      exact ih (by simp) (fun g hg => hdot g (List.mem_cons_of_mem a hg))

theorem mem_splitChDot_no_dot : ∀ {l : List Char} {g : List Char},
    g ∈ splitChDot l → ('.') ∉ g := by
  intro l
  induction l with
  | nil =>
    intro g hg
    simp [splitChDot] at hg
    simp [hg]
  | cons c cs ih =>
    intro g hg
    simp only [splitChDot] at hg
    by_cases h : c = '.'
    · simp [h] at hg
      rcases hg with hg | hg
      · simp [hg]
      · exact ih hg
    · simp only [h, if_false] at hg
      cases hs : splitChDot cs with
      | nil => exact absurd hs (splitChDot_ne_nil cs)
      | cons g0 gs0 =>
        rw [hs] at hg
        simp at hg
        rcases hg with hg | hg
        · subst hg
          intro hmem
          rcases List.mem_cons.mp hmem with hh | hh
          · exact h hh.symm
          · exact ih (hs ▸ List.mem_cons_self g0 gs0) hh
        · exact ih (hs ▸ List.mem_cons_of_mem g0 hg)

/-- The data of `s ++ t` is the concatenation of the datas. -/
theorem data_append (s t : String) : (s ++ t).data = s.data ++ t.data := by
  cases s
  cases t
  rfl

/-- Model of Python `"x.y.z".split(".")`. -/
def splitDots (s : String) : List String := (splitChDot s.data).map String.mk

/-- Model of Python `".".join(l)`. -/
def joinDots : List String → String
  | [] => ""
  | [a] => a
  | a :: b :: r => a ++ "." ++ joinDots (b :: r)

theorem joinDots_data : ∀ l : List String, (joinDots l).data = joinChDot (l.map String.data) := by
  intro l
  induction l with
  | nil => rfl
  | cons a rest ih =>
    cases rest with
    | nil => rfl
    | cons b r =>
      simp only [joinDots, List.map, joinChDot]
      rw [data_append, data_append, ih]
      simp [joinChDot]

theorem joinDots_splitDots (s : String) : joinDots (splitDots s) = s := by
  apply string_data_inj
  rw [joinDots_data]
  unfold splitDots
  rw [List.map_map]
  have : (String.data ∘ String.mk) = id := by
    funext l
    rfl
  rw [this, List.map_id]
  exact joinChDot_splitChDot s.data

/-- A string with no `.` character in it. -/
def dotFree (s : String) : Bool := ! s.data.contains ('.')

theorem dotFree_iff {s : String} : dotFree s = true ↔ ('.') ∉ s.data := by
  unfold dotFree
  simp [List.contains]

theorem splitDots_joinDots {l : List String} (h0 : l ≠ [])
    (h1 : ∀ x ∈ l, dotFree x = true) : splitDots (joinDots l) = l := by
  unfold splitDots
  rw [joinDots_data]
  rw [splitChDot_joinChDot]
  · rw [List.map_map]
    have : (String.mk ∘ String.data) = id := by
      funext s
      cases s
      rfl
    rw [this, List.map_id]
  · simp [h0]
  · intro g hg
    rcases List.mem_map.mp hg with ⟨x, hx, hxg⟩
    subst hxg
    exact dotFree_iff.mp (h1 x hx)

theorem splitDots_ne_nil (s : String) : splitDots s ≠ [] := by
  unfold splitDots
  simp [splitChDot_ne_nil]

theorem splitDots_dotFree (s : String) : ∀ x ∈ splitDots s, dotFree x = true := by
  intro x hx
  unfold splitDots at hx
  rcases List.mem_map.mp hx with ⟨g, hg, hxg⟩
  subst hxg
  rw [dotFree_iff]
  exact mem_splitChDot_no_dot hg

theorem splitDots_inj {s t : String} (h : splitDots s = splitDots t) : s = t := by
  have := congrArg joinDots h
  rwa [joinDots_splitDots, joinDots_splitDots] at this

/-! ## Python `dict` as an insertion-ordered association list -/

/-- `d[k] = v` on a CPython dict: if `k` is present its value is replaced
in place (position kept), otherwise the pair is appended at the end. -/
def dinsert {β : Type} : List (String × β) → String → β → List (String × β)
  | [], k, v => [(k, v)]
  | (k0, v0) :: rest, k, v =>
    if k0 == k then (k, v) :: rest else (k0, v0) :: dinsert rest k v

theorem lookup_dinsert_self {β : Type} (d : List (String × β)) (k : String) (v : β) :
    List.lookup k (dinsert d k v) = some v := by
  induction d with
  | nil => simp [dinsert, List.lookup]
  | cons p rest ih =>
    obtain ⟨k0, v0⟩ := p
    simp only [dinsert]
    by_cases h : k0 = k
    · simp [h, List.lookup]
    · simp only [beq_iff_eq, h, if_false, List.lookup]
      have : (k == k0) = false := by
        simp [beq_iff_eq]
        exact fun hh => h hh.symm
      simp [this, ih]

theorem lookup_dinsert_ne {β : Type} (d : List (String × β)) {k k' : String} (v : β)
    (h : k' ≠ k) : List.lookup k' (dinsert d k v) = List.lookup k' d := by
  induction d with
  | nil =>
    have hf : (k' == k) = false := by simp [h]
    simp [dinsert, List.lookup, hf]
  | cons p rest ih =>
    obtain ⟨k0, v0⟩ := p
    simp only [dinsert]
    by_cases h0 : k0 = k
    · subst h0
      have hf : (k' == k0) = false := by simp [h]
      simp [List.lookup, hf]
    · simp only [beq_iff_eq, h0, if_false, List.lookup]
      by_cases h1 : k' = k0
      · simp [h1]
      · have h1' : (k' == k0) = false := by simp [h1]
        simp [h1', ih]

theorem keys_dinsert_mem {β : Type} (d : List (String × β)) (k : String) (v : β) :
    ∀ x, x ∈ (dinsert d k v).map Prod.fst ↔ (x ∈ d.map Prod.fst ∨ x = k) := by
  intro x
  induction d with
  | nil => simp [dinsert, eq_comm]
  | cons p rest ih =>
    obtain ⟨k0, v0⟩ := p
    simp only [dinsert]
    by_cases h : k0 = k
    · subst h
      simp [eq_comm]
      tauto
    · simp only [beq_iff_eq, h, if_false]
      simp at ih ⊢
      tauto

theorem nodup_keys_dinsert {β : Type} (d : List (String × β)) (k : String) (v : β)
    (h : (d.map Prod.fst).Nodup) : ((dinsert d k v).map Prod.fst).Nodup := by
  induction d with
  | nil => simp [dinsert]
  | cons p rest ih =>
    obtain ⟨k0, v0⟩ := p
    simp only [dinsert]
    by_cases hk : k0 = k
    · subst hk
      simpa using h
    · simp only [beq_iff_eq, hk, if_false]
      simp only [List.map_cons, List.nodup_cons] at h ⊢
      constructor
      · intro hmem
        rcases (keys_dinsert_mem rest k v k0).mp hmem with hm | hm
        · exact h.1 hm
        · exact hk hm
      · exact ih h.2

theorem mem_dinsert {β : Type} {d : List (String × β)} {k : String} {v : β} {p : String × β}
    (h : p ∈ dinsert d k v) : p = (k, v) ∨ p ∈ d := by
  induction d with
  | nil => simp [dinsert] at h; simp [h]
  | cons q rest ih =>
    obtain ⟨k0, v0⟩ := q
    simp only [dinsert] at h
    by_cases hk : k0 = k
    · simp [hk] at h
      rcases h with h | h
      · left; simp [h]
      · right; simp [h]
    · simp only [beq_iff_eq, hk, if_false, List.mem_cons] at h
      rcases h with h | h
      · right; simp [h]
      · rcases ih h with h2 | h2
        · left; exact h2
        · right; exact List.mem_cons_of_mem _ h2

theorem lookup_mem {β : Type} {d : List (String × β)} {k : String} {v : β}
    (h : List.lookup k d = some v) : (k, v) ∈ d := by
  induction d with
  | nil => simp [List.lookup] at h
  | cons p rest ih =>
    obtain ⟨k0, v0⟩ := p
    simp only [List.lookup] at h
    by_cases hk : k = k0
    · simp [hk] at h
      simp [hk, h]
    · have hk' : (k == k0) = false := by simp [beq_iff_eq, hk]
      simp [hk'] at h
      exact List.mem_cons_of_mem _ (ih h)

theorem mem_lookup_of_nodup {β : Type} {d : List (String × β)} {k : String} {v : β}
    (hnd : (d.map Prod.fst).Nodup) (h : (k, v) ∈ d) : List.lookup k d = some v := by
  induction d with
  | nil => simp at h
  | cons p rest ih =>
    obtain ⟨k0, v0⟩ := p
    simp only [List.map_cons, List.nodup_cons] at hnd
    rcases List.mem_cons.mp h with h1 | h1
    · injection h1 with hk hv
      subst hk
      subst hv
      simp [List.lookup]
    · have hk : k ≠ k0 := by
        intro hh
        subst hh
        exact hnd.1 (List.mem_map.mpr ⟨(k, v), h1, rfl⟩)
      have hk' : (k == k0) = false := by simp [hk]
      simp [List.lookup, hk']
      exact ih hnd.2 h1

/-- Model of Python `sep.join(l)` for a general separator. -/
def joinSep (sep : String) : List String → String
  | [] => ""
  | [a] => a
  | a :: b :: r => a ++ sep ++ joinSep sep (b :: r)

/-! ## The Type Renderer (`type_to_code_str`, `get_typing_imports`)

A runtime `typing` annotation object is modelled as an explicit descriptor:

* `union args`      — `__origin__ is Union`, `__args__ = args`;
* `dict k v`        — `__origin__ is Dict` (`typing.Dict[k, v]`);
* `generic n m args`— any other parameterized type, `__origin__.__name__ = n`,
                      `__origin__.__module__ = m`, `__args__ = args`;
* `noneType`        — `type(None)`;
* `anyType`         — bare `typing.Any` (no `__origin__`; its `_name` is
                      `"Any"`, and `ann is Any` holds);
* `special nm`      — any other bare typing special form carrying `_name`;
* `cls nm`          — a plain class, rendered by its `__name__`.

The `origin is Any` branch of `type_to_code_str` (line 70 of the source) is
unreachable for descriptors of this shape: `typing.Any` is never an
`__origin__`, so it does not appear in the model. -/

inductive PyType : Type where
  | union (args : List PyType)
  | dict (k v : PyType)
  | generic (originName originModule : String) (args : List PyType)
  | noneType
  | anyType
  | special (nm : String)
  | cls (nm : String)

/-- `arg is type(None)` (identity test against `NoneType`). -/
def isNoneType : PyType → Bool
  | .noneType => true
  | _ => false

/-- `type(None) in args`. -/
def listHasNone : List PyType → Bool
  | [] => false
  | a :: as => isNoneType a || listHasNone as

mutual
/-- `type_to_code_str` from the source: renders a typing descriptor as the
text of a type expression.  The comprehension
`[type_to_code_str(arg) for arg in args if which == "Union" or arg is not type(None)]`
is modelled by `renderUnionArgs (which == "Union") args`. -/
def type_to_code_str : PyType → String
  | .union args =>
    let isOpt := listHasNone args && (args.length == 2)
    (if isOpt then "Optional" else "Union") ++ "[" ++
      joinSep ", " (renderUnionArgs (!isOpt) args) ++ "]"
  | .dict k v => "Dict[" ++ type_to_code_str k ++ ", " ++ type_to_code_str v ++ "]"
  | .generic nm _ args => nm ++ "[" ++ joinSep ", " (renderArgs args) ++ "]"
  | .noneType => "None"
  | .anyType => "Any"
  | .special nm => nm
  | .cls nm => nm

/-- The filtered comprehension of the `Union` branch: keeps an argument if
`which == "Union"` (`includeNone`) or the argument is not `type(None)`. -/
def renderUnionArgs (includeNone : Bool) : List PyType → List String
  | [] => []
  | a :: as =>
    (if includeNone || !(isNoneType a) then [type_to_code_str a] else []) ++
      renderUnionArgs includeNone as

/-- `[type_to_code_str(e) for e in elements]`. -/
def renderArgs : List PyType → List String
  | [] => []
  | a :: as => type_to_code_str a :: renderArgs as
end

mutual
/-- `get_typing_imports` from the source: the `typing` names needed by a
descriptor, in discovery order (they are deduplicated and sorted later). -/
def get_typing_imports : PyType → List String
  | .union args =>
    (if listHasNone args && (args.length == 2) then ["Optional"] else ["Union"]) ++
      gtiList args
  | .dict k v => "Dict" :: (get_typing_imports k ++ get_typing_imports v)
  | .generic nm md args => (if md ≠ "builtins" then [nm] else []) ++ gtiList args
  | .noneType => []
  | .anyType => ["Any"]
  | .special _ => []
  | .cls _ => []

/-- `sum([get_typing_imports(arg) for arg in args], [])`. -/
def gtiList : List PyType → List String
  | [] => []
  | a :: as => get_typing_imports a ++ gtiList as
end

theorem isNoneType_eq_false_iff {a : PyType} : isNoneType a = false ↔ a ≠ PyType.noneType := by
  cases a <;> simp [isNoneType]

theorem listHasNone_iff {args : List PyType} :
    listHasNone args = true ↔ PyType.noneType ∈ args := by
  induction args with
  | nil => simp [listHasNone]
  | cons a as ih =>
    simp only [listHasNone, Bool.or_eq_true, ih, List.mem_cons]
    constructor
    · rintro (h | h)
      · left
        cases a <;> simp_all [isNoneType]
      · right; exact h
    · rintro (h | h)
      · left; rw [← h]; rfl
      · right; exact h

theorem renderArgs_eq_map (args : List PyType) :
    renderArgs args = args.map type_to_code_str := by
  induction args with
  | nil => rfl
  | cons a as ih => simp [renderArgs, ih]

theorem renderUnionArgs_true (args : List PyType) :
    renderUnionArgs true args = args.map type_to_code_str := by
  induction args with
  | nil => rfl
  | cons a as ih => simp [renderUnionArgs, ih]

/-! ## The Section Registry (`config_class`) -/

/-- The error raised on duplicate registration:
`ValueError("Redefining", name, "is not allowed; found", c, "and", _name_to_config[name])`.
It carries the path and both the new and the prior definition. -/
structure RegError where
  path : String
  newDef : String
  priorDef : String
deriving DecidableEq

/-- The decorator body of `config_class(name)` applied to a class `c`
(classes are identified by name).  Returns the raised error (if any) and the
resulting registry: on a duplicate path the error names both definitions and
the registry is returned unchanged; otherwise `_name_to_config[name] = c`
appends the new entry. -/
def register (reg : List (String × String)) (nm : String) (c : String) :
    Option RegError × List (String × String) :=
  match List.lookup nm reg with
  | some prior => (some ⟨nm, c, prior⟩, reg)
  | none => (none, reg ++ [(nm, c)])

/-! ## Per-class schema fields (`output_stub`, lines 144–177) -/

/-- `attr_name.startswith("__")`. -/
def startsDunder (s : String) : Bool :=
  match s.data with
  | c1 :: c2 :: _ => c1 == '_' && c2 == '_'
  | _ => false

/-- The runtime type of an attribute's default value:
`t = type(getattr(cobj, attr_name))`, keeping `t.__name__` and `t.__module__`. -/
structure RTType where
  name : String
  module : String
deriving DecidableEq

/-- One entry of a class's `__annotations__` table, split by the branches of
the source (lines 163–174): a plain class (`isinstance(t, type)`), a typing
object (`str(t).startswith("typing.")`), or anything else (rendered by its
`str`).  Each carries its `__module__`. -/
inductive AnnTy : Type where
  | cls (name module : String)
  | typ (t : PyType) (module : String)
  | other (reprStr module : String)

/-- A section class as the stub builder sees it: its `dir()` entries (public
and dunder, each with the runtime type of its value), its `__annotations__`,
and the parsed numpydoc `Attributes` entries of its docstring. -/
structure SectionClass where
  attrs : List (String × RTType)
  anns : List (String × AnnTy)
  docAttrs : List (String × String)

/-- `ConfigAttr = namedtuple("ConfigAttr", ["type", "docstring"])`. -/
structure ConfigAttr where
  type : String
  docstring : String
deriving DecidableEq

/-- `docstrings[attr_name]`: the last numpydoc entry for the name, `""` if none
(`docstrings` is a `defaultdict(lambda: "")` filled in order). -/
def docOf (c : SectionClass) (n : String) : String :=
  (List.lookup n c.docAttrs.reverse).getD ""

/-- The inferred-field pass (lines 155–159): every non-dunder `dir()` entry
becomes a `ConfigAttr` of the runtime type's name, in `dir()` order. -/
def inferredOps (c : SectionClass) : List (String × ConfigAttr) :=
  c.attrs.filterMap (fun p =>
    if startsDunder p.1 then none
    else some (p.1, ⟨p.2.name, docOf c p.1⟩))

/-- Import lines appended by the inferred pass (lines 160–161). -/
def inferredImports (c : SectionClass) : List String :=
  c.attrs.filterMap (fun p =>
    if startsDunder p.1 then none
    else if p.2.module ≠ "builtins" then
      some ("from " ++ p.2.module ++ " import " ++ p.2.name)
    else none)

/-- The rendered type text of one annotation (lines 164–174). -/
def annRender : AnnTy → String
  | .cls n _ => n
  | .typ t _ => type_to_code_str t
  | .other r _ => r

/-- The declared-field pass (lines 163–175): every annotation becomes a
`ConfigAttr`, overriding any same-named inferred field. -/
def declaredOps (c : SectionClass) : List (String × ConfigAttr) :=
  c.anns.map (fun p => (p.1, ⟨annRender p.2, docOf c p.1⟩))

/-- Import lines appended by the declared pass (lines 176–177); a typing
annotation sets `iname = None` and never produces one. -/
def declaredImports (c : SectionClass) : List String :=
  c.anns.filterMap (fun p =>
    match p.2 with
    | .cls n m => if m ≠ "builtins" then some ("from " ++ m ++ " import " ++ n) else none
    | .typ _ _ => none
    | .other r m => if m ≠ "builtins" then some ("from " ++ m ++ " import " ++ r) else none)

/-- `typing_imports += get_typing_imports(t)` accumulated over the declared
pass, in order. -/
def declaredTypingImports (c : SectionClass) : List String :=
  (c.anns.map (fun p =>
    match p.2 with
    | .typ t _ => get_typing_imports t
    | _ => [])).flatten

/-- A sequence of `attr_dict[name] = value` assignments applied to a dict. -/
def applyOps (d : List (String × ConfigAttr)) (ops : List (String × ConfigAttr)) :
    List (String × ConfigAttr) :=
  ops.foldl (fun d p => dinsert d p.1 p.2) d

/-- The field dict a single class contributes, starting from an empty dict:
the inferred pass then the declared pass. -/
def classFields (c : SectionClass) : List (String × ConfigAttr) :=
  applyOps (applyOps [] (inferredOps c)) (declaredOps c)

theorem lookup_applyOps_not_mem {d : List (String × ConfigAttr)}
    {ops : List (String × ConfigAttr)} {k : String} (h : k ∉ ops.map Prod.fst) :
    List.lookup k (applyOps d ops) = List.lookup k d := by
  induction ops generalizing d with
  | nil => rfl
  | cons p rest ih =>
    simp only [List.map_cons, List.mem_cons] at h
    push_neg at h
    simp only [applyOps, List.foldl_cons]
    rw [show (List.foldl (fun d p => dinsert d p.1 p.2) (dinsert d p.1 p.2) rest) =
      applyOps (dinsert d p.1 p.2) rest from rfl] at *
    rw [ih h.2]
    exact lookup_dinsert_ne _ _ h.1

theorem lookup_applyOps_of_mem {d : List (String × ConfigAttr)}
    {ops : List (String × ConfigAttr)} {k : String} {v : ConfigAttr}
    (hnd : (ops.map Prod.fst).Nodup) (h : (k, v) ∈ ops) :
    List.lookup k (applyOps d ops) = some v := by
  induction ops generalizing d with
  | nil => simp at h
  | cons p rest ih =>
    simp only [List.map_cons, List.nodup_cons] at hnd
    rcases List.mem_cons.mp h with h1 | h1
    · subst h1
      simp only [applyOps, List.foldl_cons]
      rw [show (List.foldl (fun d p => dinsert d p.1 p.2) (dinsert d k v) rest) =
        applyOps (dinsert d k v) rest from rfl]
      rw [lookup_applyOps_not_mem hnd.1]
      exact lookup_dinsert_self _ _ _
    · exact ih hnd.2 h1

theorem filterMap_dunder_keys (f : String × RTType → ConfigAttr) :
    ∀ l : List (String × RTType),
      (l.filterMap (fun p => if startsDunder p.1 then none else some (p.1, f p))).map Prod.fst
        = (l.map Prod.fst).filter (fun n => !startsDunder n) := by
  intro l
  induction l with
  | nil => rfl
  | cons p rest ih =>
    simp only [List.filterMap_cons, List.map_cons, List.filter_cons]
    cases h : startsDunder p.1 with
    | true => simp [h, ih]
    | false => simp [h, ih]

theorem inferredOps_keys (c : SectionClass) :
    (inferredOps c).map Prod.fst =
      (c.attrs.map Prod.fst).filter (fun n => !startsDunder n) := by
  unfold inferredOps
  exact filterMap_dunder_keys (fun p => ⟨p.2.name, docOf c p.1⟩) c.attrs

theorem mem_inferredOps {c : SectionClass} {k : String} {v : ConfigAttr} :
    (k, v) ∈ inferredOps c ↔
      ∃ t, (k, t) ∈ c.attrs ∧ startsDunder k = false ∧ v = ⟨t.name, docOf c k⟩ := by
  unfold inferredOps
  rw [List.mem_filterMap]
  constructor
  · rintro ⟨⟨n, t⟩, hmem, heq⟩
    cases h : startsDunder n with
    | true => rw [h] at heq; simp at heq
    | false =>
      rw [h] at heq
      simp only [Bool.false_eq_true, if_false, Option.some.injEq, Prod.mk.injEq] at heq
      obtain ⟨hk, hv⟩ := heq
      subst hk
      exact ⟨t, hmem, h, hv.symm⟩
  · rintro ⟨t, hmem, hpub, hv⟩
    refine ⟨(k, t), hmem, ?_⟩
    simp [hpub, hv]

/-! ### Claim theorems C3, C4, C9 -/

/-- **C3.** For every registry state and dotted path already present,
registering a second definition raises an error naming both the new definition
and the prior owner and leaves the registry unchanged; registering at a fresh
path inserts `path → definition` without error. -/
theorem register_duplicate_and_fresh (reg : List (String × String)) (nm c : String) :
    (∀ prior, List.lookup nm reg = some prior →
       register reg nm c = (some ⟨nm, c, prior⟩, reg))
    ∧ (List.lookup nm reg = none →
       register reg nm c = (none, reg ++ [(nm, c)])) := by
  constructor
  · intro prior h
    unfold register
    rw [h]
  · intro h
    unfold register
    rw [h]

/-- Witness for C3 at concrete inputs: a duplicate registration of `"db"`
errors naming both `"B"` (new) and `"A"` (prior) with the registry untouched,
and a fresh registration inserts. -/
theorem register_duplicate_and_fresh_witness :
    register [("db", "A")] "db" "B" = (some ⟨"db", "B", "A"⟩, [("db", "A")])
    ∧ register [] "db" "A" = (none, [("db", "A")]) :=
  ⟨(register_duplicate_and_fresh [("db", "A")] "db" "B").1 "A" rfl,
   (register_duplicate_and_fresh [] "db" "A").2 rfl⟩

/-- **C4.** For a section class having both an attribute `x` with a default
value (an inferred field) and an explicit annotation for `x`, the field
recorded for `x` carries the type derived from the annotation, not the type
inferred from the default value. -/
theorem declared_overrides_inferred (c : SectionClass) (x : String) (t : RTType) (a : AnnTy)
    (hattr : (x, t) ∈ c.attrs) (hpub : startsDunder x = false)
    (hann : (x, a) ∈ c.anns) (hnd : (c.anns.map Prod.fst).Nodup) :
    List.lookup x (classFields c) = some ⟨annRender a, docOf c x⟩ := by
  unfold classFields
  apply lookup_applyOps_of_mem
  · unfold declaredOps
    rw [List.map_map]
    exact hnd
  · unfold declaredOps
    exact List.mem_map.mpr ⟨(x, a), hann, rfl⟩

/-- Witness for C4: a class with default `x = <int>` and annotation
`x : float` records `x : float`. -/
theorem declared_overrides_inferred_witness :
    List.lookup "x"
      (classFields ⟨[("x", ⟨"int", "builtins"⟩)], [("x", AnnTy.cls "float" "builtins")], []⟩)
      = some ⟨"float", ""⟩ :=
  declared_overrides_inferred
    ⟨[("x", ⟨"int", "builtins"⟩)], [("x", AnnTy.cls "float" "builtins")], []⟩
    "x" ⟨"int", "builtins"⟩ (AnnTy.cls "float" "builtins")
    (by simp) (by decide) (by simp) (by simp)

/-- **C9.** The inferred pass enumerates exactly the non-dunder (`__`-prefixed
names excluded) attributes present on the class, typed by the runtime type of
their default value, and records an import line exactly for those whose type's
module is not `builtins`. -/
theorem inferred_fields_exactly_public (c : SectionClass)
    (hnd : (c.attrs.map Prod.fst).Nodup) :
    (∀ x t, (x, t) ∈ c.attrs → startsDunder x = false →
       List.lookup x (applyOps [] (inferredOps c)) = some ⟨t.name, docOf c x⟩)
    ∧ (∀ x, (∀ t, (x, t) ∈ c.attrs → startsDunder x = true) →
       List.lookup x (applyOps [] (inferredOps c)) = none)
    ∧ (∀ im, im ∈ inferredImports c ↔
       ∃ x t, (x, t) ∈ c.attrs ∧ startsDunder x = false ∧ t.module ≠ "builtins" ∧
         im = "from " ++ t.module ++ " import " ++ t.name) := by
  have hinf : ((inferredOps c).map Prod.fst).Nodup := by
    rw [inferredOps_keys]
    exact List.Nodup.filter _ hnd
  refine ⟨?_, ?_, ?_⟩
  · intro x t hmem hpub
    apply lookup_applyOps_of_mem hinf
    exact mem_inferredOps.mpr ⟨t, hmem, hpub, rfl⟩
  · intro x hall
    rw [lookup_applyOps_not_mem]
    · rfl
    · intro hx
      rw [inferredOps_keys] at hx
      rcases List.mem_filter.mp hx with ⟨hmem, hfil⟩
      rcases List.mem_map.mp hmem with ⟨⟨k, t⟩, hkt, hk⟩
      simp only at hk
      subst hk
      have := hall t hkt
      rw [this] at hfil
      exact Bool.noConfusion hfil
  · intro im
    unfold inferredImports
    rw [List.mem_filterMap]
    constructor
    · rintro ⟨⟨n, t⟩, hmem, heq⟩
      split_ifs at heq with h1 h2
      · have hpub : startsDunder n = false := by
          cases hd : startsDunder n
          · rfl
          · exact absurd hd h1
        have him : im = "from " ++ t.module ++ " import " ++ t.name :=
          (Option.some.inj heq).symm
        exact ⟨n, t, hmem, hpub, h2, him⟩
    · rintro ⟨x, t, hmem, hpub, hmod, him⟩
      refine ⟨(x, t), hmem, ?_⟩
      simp [hpub, hmod, him]

/-- Witness for C9: a class with public `x : <Tensor from torch>` and dunder
`__doc__` yields exactly the field `x` and the single torch import. -/
theorem inferred_fields_exactly_public_witness :
    List.lookup "x"
      (applyOps [] (inferredOps ⟨[("__doc__", ⟨"str", "builtins"⟩), ("x", ⟨"Tensor", "torch"⟩)], [], []⟩))
      = some ⟨"Tensor", ""⟩
    ∧ List.lookup "__doc__"
      (applyOps [] (inferredOps ⟨[("__doc__", ⟨"str", "builtins"⟩), ("x", ⟨"Tensor", "torch"⟩)], [], []⟩))
      = none
    ∧ ("from torch import Tensor" ∈
        inferredImports ⟨[("__doc__", ⟨"str", "builtins"⟩), ("x", ⟨"Tensor", "torch"⟩)], [], []⟩) := by
  refine ⟨?_, ?_, ?_⟩
  · exact (inferred_fields_exactly_public _ (by decide)).1 "x" ⟨"Tensor", "torch"⟩
      (by simp) (by decide)
  · exact (inferred_fields_exactly_public _ (by decide)).2.1 "__doc__"
      (by intro t h; simp at h; simp [h, startsDunder])
  · exact ((inferred_fields_exactly_public _ (by decide)).2.2 _).mpr
      ⟨"x", ⟨"Tensor", "torch"⟩, by simp, by decide, by decide, rfl⟩

/-! ### Claim theorem C2 -/

/-- **C2.** A union of exactly two variants one of which is `NoneType`
renders as `Optional[<inner>]` with the absence type elided; any union with
three or more variants, or two variants neither of which is `NoneType`,
renders as `Union[...]` listing all variants; `NoneType` itself renders as
the literal `None`. -/
theorem type_renderer_optional_union (args : List PyType) :
    (∀ a : PyType, a ≠ PyType.noneType →
       (args = [a, PyType.noneType] ∨ args = [PyType.noneType, a]) →
       type_to_code_str (.union args) = "Optional[" ++ type_to_code_str a ++ "]")
    ∧ (¬ (args.length = 2 ∧ PyType.noneType ∈ args) →
       type_to_code_str (.union args) =
         "Union[" ++ joinSep ", " (args.map type_to_code_str) ++ "]")
    ∧ type_to_code_str PyType.noneType = "None" := by
  refine ⟨?_, ?_, rfl⟩
  · intro a ha hcase
    have hnone : isNoneType a = false := isNoneType_eq_false_iff.mpr ha
    rcases hcase with h | h <;> subst h <;>
      simp [type_to_code_str, listHasNone, renderUnionArgs, isNoneType, hnone, joinSep]
  · intro h
    have hopt : (listHasNone args && (args.length == 2)) = false := by
      cases hl : listHasNone args with
      | false => rfl
      | true =>
        cases he : args.length == 2 with
        | false => rfl
        | true =>
          exact absurd ⟨Nat.beq_eq.mp (by simpa using he), listHasNone_iff.mp hl⟩ h
    simp only [type_to_code_str, hopt]
    rw [show (!false) = true from rfl, renderUnionArgs_true]
    simp

/-- Witness for C2: `Union[int, None]` renders as `Optional[int]`, and
`Union[int, str, None]` renders listing all three variants with `None`
literal. -/
theorem type_renderer_optional_union_witness :
    type_to_code_str (.union [.cls "int", .noneType]) = "Optional[int]"
    ∧ type_to_code_str (.union [.cls "int", .cls "str", .noneType]) =
        "Union[int, str, None]" := by
  constructor
  · have h := (type_renderer_optional_union [.cls "int", .noneType]).1
      (.cls "int") (by intro hc; exact PyType.noConfusion hc) (Or.inl rfl)
    rw [h]
    rfl
  · have h := (type_renderer_optional_union [.cls "int", .cls "str", .noneType]).2.1
      (by intro hc; simp at hc)
    rw [h]
    rfl

/-! ## The Discovery Visitor (`visit_ClassDef`)

A decorator expression from `ast` is modelled by `AstExpr`: a `Call` with a
function expression and positional arguments, a `Name`, a `Constant`
(carrying the kind of literal), or anything else. -/

inductive AstConst : Type where
  | str (s : String)
  | int (n : Int)
  | boolLit (b : Bool)
  | noneLit
deriving DecidableEq

inductive AstExpr : Type where
  | call (func : AstExpr) (args : List AstExpr)
  | name (id : String)
  | constant (c : AstConst)
  | otherExpr

/-- The marker test of `visit_ClassDef` (lines 206–213): the decorator is a
`Call`, its function is the `Name` `config_class`, there is exactly one
positional argument, and that argument is an `ast.Constant` (any literal). -/
def isMarkerMatch : AstExpr → Bool
  | .call f args =>
    (match f with
     | .name id => id == "config_class"
     | _ => false)
    && (args.length == 1)
    && (match args.head? with
        | some (.constant _) => true
        | _ => false)
  | _ => false

/-- One `visit_ClassDef` call over a class's decorator list: sets
`_should_import` to `True` when some decorator matches, and never clears it. -/
def visitClassDef (should : Bool) (decs : List AstExpr) : Bool :=
  decs.foldl (fun s dec => if isMarkerMatch dec then true else s) should

/-- Scanning a module: `_should_import` starts `False` and each class
declaration (decorator list) is visited in turn.  The file is marked for
loading exactly when the result is `True`. -/
def scanModule (classes : List (List AstExpr)) : Bool :=
  classes.foldl visitClassDef false

theorem visitClassDef_eq (should : Bool) (decs : List AstExpr) :
    visitClassDef should decs = (should || decs.any isMarkerMatch) := by
  induction decs generalizing should with
  | nil => simp [visitClassDef]
  | cons d rest ih =>
    unfold visitClassDef at ih ⊢
    simp only [List.foldl_cons, List.any_cons]
    cases h : isMarkerMatch d with
    | true =>
      simp only [if_true]
      rw [ih true]
      simp
    | false =>
      simp only [Bool.false_eq_true, if_false]
      rw [ih should]
      simp

/-- The condition C8 claims: a marker with a single **string** literal. -/
def isStrMarkerMatch : AstExpr → Bool
  | .call (.name id) [.constant (.str _)] => id == "config_class"
  | _ => false

/-! ### Claim theorems C8 -/

/-- C8 as stated is false: the discovery test accepts *any* literal, not only
string literals.  `@config_class(42)` marks the file for loading although its
argument is not a string literal. -/
theorem discovery_counterexample :
    scanModule [[AstExpr.call (.name "config_class") [.constant (.int 42)]]] = true
    ∧ isStrMarkerMatch (AstExpr.call (.name "config_class") [.constant (.int 42)]) = false := by
  constructor
  · rfl
  · rfl

/-- **C8 (amended).** The Discovery Visitor marks a file exactly when some
class declaration carries the `config_class` marker with a single *literal*
argument (of any constant kind, not only strings); a non-literal argument or
wrong arity is a non-match, and scanning is total (never an error). -/
theorem discovery_marks_iff (classes : List (List AstExpr)) :
    scanModule classes = true ↔
      ∃ decs ∈ classes, ∃ dec ∈ decs,
        ∃ nm args c, dec = AstExpr.call (.name nm) args ∧ nm = "config_class" ∧
          args = [AstExpr.constant c] := by
  have hscan : ∀ cls : List (List AstExpr), scanModule cls = cls.any (fun decs => decs.any isMarkerMatch) := by
    intro cls
    unfold scanModule
    induction cls with
    | nil => rfl
    | cons decs rest ih =>
      simp only [List.foldl_cons, List.any_cons]
      rw [visitClassDef_eq, Bool.false_or]
      cases h : decs.any isMarkerMatch with
      | true =>
        simp only [Bool.true_or]
        clear ih
        induction rest with
        | nil => rfl
        | cons d2 r2 ih2 =>
          simp only [List.foldl_cons]
          rw [visitClassDef_eq]
          simpa using ih2
      | false => simpa using ih
  rw [hscan]
  simp only [List.any_eq_true]
  constructor
  · rintro ⟨decs, hdecs, dec, hdec, hmatch⟩
    refine ⟨decs, hdecs, dec, hdec, ?_⟩
    cases dec with
    | call f args =>
      simp only [isMarkerMatch, Bool.and_eq_true] at hmatch
      obtain ⟨⟨hf, hlen⟩, harg⟩ := hmatch
      cases f with
      | name id =>
        have hid : id = "config_class" := by simpa using hf
        cases args with
        | nil => simp at hlen
        | cons a rest =>
          cases rest with
          | nil =>
            cases a with
            | constant c => exact ⟨id, [AstExpr.constant c], c, rfl, hid, rfl⟩
            | call f2 a2 => simp [List.head?] at harg
            | name n2 => simp [List.head?] at harg
            | otherExpr => simp [List.head?] at harg
          | cons b rest2 => simp at hlen
      | call f2 a2 => simp at hf
      | constant c2 => simp at hf
      | otherExpr => simp at hf
    | name id => simp [isMarkerMatch] at hmatch
    | constant c => simp [isMarkerMatch] at hmatch
    | otherExpr => simp [isMarkerMatch] at hmatch
  · rintro ⟨decs, hdecs, dec, hdec, nm, args, c, hdeceq, hnm, hargs⟩
    subst hdeceq
    subst hnm
    subst hargs
    exact ⟨decs, hdecs, _, hdec, rfl⟩

/-! ## The schema tree and the emitter's block sort (`output_stub.f`)

`self.config` is a recursive `defaultdict`: an intermediate namespace is a
dict, a leaf is a `ConfigAttr`.  A tree node is therefore either a leaf
(type text + docstring) or an insertion-ordered dict of children. -/

inductive Node : Type where
  | leaf (ty doc : String)
  | dict (entries : List (String × Node))

/-- `isinstance(x[1], dict)`. -/
def isDictN : Node → Bool
  | .dict _ => true
  | .leaf _ _ => false

/-- The sort key of `f` (line 182):
`"_" + x[0] if not isinstance(x[1], dict) else x[0]` — leaf names are
prefixed with the `"_"` tiebreak marker, namespace names are not. -/
def sKey (p : String × Node) : String :=
  if isDictN p.2 then p.1 else "_" ++ p.1

/-- Comparison of two items by a string key, as Python's `sorted(…, key=…)`
compares them. -/
def keyRel {α : Type} (key : α → String) (a b : α) : Prop :=
  pyLeS (key a) (key b) = true

instance {α : Type} (key : α → String) : DecidableRel (keyRel key) :=
  fun a b => instDecidableEqBool (pyLeS (key a) (key b)) true

instance {α : Type} (key : α → String) : IsTotal α (keyRel key) :=
  ⟨fun a b => pyLeS_total (key a) (key b)⟩

instance {α : Type} (key : α → String) : IsTrans α (keyRel key) :=
  ⟨fun _ _ _ h1 h2 => pyLeS_trans h1 h2⟩

/-- `sorted(d.items(), key=lambda x: "_" + x[0] if not isinstance(x[1], dict) else x[0])`.
`List.insertionSort` is stable exactly like Python's sort. -/
def sortChildren (es : List (String × Node)) : List (String × Node) :=
  List.insertionSort (keyRel sKey) es

/-- `"    " * indentlevel`. -/
def indentStr : Nat → String
  | 0 => ""
  | n + 1 => "    " ++ indentStr n

mutual
/-- One iteration of the loop over `sorted(d.items(), …)` inside `f`
(lines 182–188): a nested block for a dict value, a `name: type` line plus
optional docstring line for a leaf.  The displayed name is the original
key `k`, never the `"_"`-prefixed sort key. -/
def renderEntry (k : String) (v : Node) (il : Nat) : String :=
  match v with
  | .dict es2 =>
    indentStr il ++ "class " ++ k ++ ":\n" ++ renderItems es2 (il + 1) ++
      (if es2.isEmpty then indentStr (il + 1) ++ "...\n" else "")
  | .leaf ty doc =>
    indentStr il ++ k ++ ": " ++ ty ++ "\n" ++
      (if doc == "" then "" else indentStr il ++ "\"\"\"" ++ doc ++ "\"\"\"\n")

def renderItems : List (String × Node) → Nat → String
  | [], _ => ""
  | (k, v) :: rest, il => renderEntry k v il ++ renderItems rest il
end

/-- The body of `f` (lines 179–192) applied to an already-sorted entry list:
the `class` header, then each item, then the `...` placeholder when the
block is empty. -/
def renderDict (name : String) (es : List (String × Node)) (il : Nat) : String :=
  indentStr il ++ "class " ++ name ++ ":\n" ++ renderItems es (il + 1) ++
    (if es.isEmpty then indentStr (il + 1) ++ "...\n" else "")

mutual
/-- Recursively sorting every block of a tree with `f`'s sort.  Python's `f`
sorts each block at the moment it recurses into it; sorting every block
up front is the same computation (the sort of a block changes neither the
keys nor the children it contains), so `f name d il` is
`renderDict name es il` on the canonized entries `es` — see `fModel`. -/
def canonNode : Node → Node
  | .leaf t d => .leaf t d
  | .dict es => .dict (sortChildren (canonEntries es))

def canonEntries : List (String × Node) → List (String × Node)
  | [] => []
  | (k, v) :: rest => (k, canonNode v) :: canonEntries rest
end

/-- The model of `f(name, d, indentlevel)`. -/
def fModel (name : String) (n : Node) (il : Nat) : String :=
  match canonNode n with
  | .leaf _ _ => ""
  | .dict es => renderDict name es il

theorem canonEntries_eq_map (es : List (String × Node)) :
    canonEntries es = es.map (fun p => (p.1, canonNode p.2)) := by
  induction es with
  | nil => rfl
  | cons p rest ih =>
    obtain ⟨k, v⟩ := p
    simp [canonEntries, ih]

/-! ### Claim theorems C1 -/

/-- "every namespace field appears after every leaf field": no dict-valued
entry precedes a leaf-valued entry. -/
def nsAfterLeaves (l : List (String × Node)) : Prop :=
  l.Pairwise (fun p q => isDictN p.2 = true → isDictN q.2 = false → False)

instance (l : List (String × Node)) : Decidable (nsAfterLeaves l) := by
  unfold nsAfterLeaves
  exact List.instDecidablePairwise l

/-- The names of the leaf entries, in block order. -/
def leafNames (l : List (String × Node)) : List String :=
  (l.filter (fun p => !isDictN p.2)).map Prod.fst

/-- A namespace name whose first character's code point exceeds the `"_"`
marker (code point 95) — e.g. any lowercase identifier. -/
def nsNameOk (s : String) : Bool :=
  match s.data with
  | c :: _ => 95 < c.toNat
  | [] => false

theorem pyLtL_cons_same (c : Char) (a b : List Char) :
    pyLtL (c :: a) (c :: b) = pyLtL a b := by
  simp [pyLtL]

theorem underscore_prepend_data (a : String) : (("_" : String) ++ a).data = '_' :: a.data := by
  rw [data_append]
  rfl

/-- C1 as stated is false: with leaf `a` and namespace `B` in one block, the
sort places the namespace **before** the leaf (`"B" < "_a"` since
`'B' = 66 < '_' = 95`). -/
theorem stub_sort_counterexample :
    ¬ nsAfterLeaves (sortChildren [("a", Node.leaf "int" ""), ("B", Node.dict [])]) := by
  decide

/-- **C1 (amended).** Within a block, leaf fields are always sorted
alphabetically among themselves; *provided every namespace name in the block
begins with a character whose code point exceeds the marker `'_'` (e.g. a
lowercase letter), every namespace field appears after every leaf field; and
the sorted block holds the original entries verbatim (a permutation of the
input), so the `"_"` marker used for comparison never reaches the display. -/
theorem stub_block_order (es : List (String × Node))
    (hns : ∀ p ∈ es, isDictN p.2 = true → nsNameOk p.1 = true) :
    nsAfterLeaves (sortChildren es)
    ∧ (leafNames (sortChildren es)).Pairwise (fun a b => pyLeS a b = true)
    ∧ List.Perm (sortChildren es) es := by
  have hperm : List.Perm (sortChildren es) es := List.perm_insertionSort _ es
  have hsorted : List.Sorted (keyRel sKey) (sortChildren es) :=
    List.sorted_insertionSort (keyRel sKey) es
  refine ⟨?_, ?_, hperm⟩
  · unfold nsAfterLeaves
    apply List.Pairwise.imp_of_mem ?_ hsorted
    intro p q hp hq hrel hdp hdq
    have hpns : nsNameOk p.1 = true := hns p (hperm.mem_iff.mp hp) hdp
    -- sKey p = p.1 (dict), sKey q = "_" ++ q.1 (leaf)
    unfold keyRel at hrel
    unfold sKey at hrel
    rw [hdp] at hrel
    rw [hdq] at hrel
    simp only [if_true, Bool.false_eq_true, if_false] at hrel
    -- hrel : pyLeS p.1 ("_" ++ q.1) = true, i.e. ¬ ("_" ++ q.1 < p.1)
    unfold pyLeS pyLtS at hrel
    rw [underscore_prepend_data] at hrel
    -- but "_" ++ q.1 < p.1 holds by the first character
    unfold nsNameOk at hpns
    cases hd : p.1.data with
    | nil => rw [hd] at hpns; exact Bool.noConfusion hpns
    | cons c cs =>
      rw [hd] at hpns hrel
      have hlt : pyLtL ('_' :: q.1.data) (c :: cs) = true := by
        rw [pyLtL_cons_iff]
        left
        have : ('_').toNat = 95 := rfl
        rw [this]
        exact Nat.lt_of_lt_of_le (by simpa using hpns) (Nat.le_refl _)
      rw [hlt] at hrel
      exact Bool.noConfusion hrel
  · unfold leafNames
    rw [List.pairwise_map]
    have hsub : List.Pairwise (keyRel sKey) ((sortChildren es).filter (fun p => !isDictN p.2)) :=
      List.Pairwise.sublist (List.filter_sublist _) hsorted
    apply List.Pairwise.imp_of_mem ?_ hsub
    intro p q hp hq hrel
    have hdp : isDictN p.2 = false := by
      have := List.of_mem_filter hp
      simpa using this
    have hdq : isDictN q.2 = false := by
      have := List.of_mem_filter hq
      simpa using this
    unfold keyRel sKey at hrel
    rw [hdp, hdq] at hrel
    simp only [Bool.false_eq_true, if_false] at hrel
    unfold pyLeS pyLtS at hrel ⊢
    rw [underscore_prepend_data, underscore_prepend_data, pyLtL_cons_same] at hrel
    exact hrel

/-- Witness for C1 (amended) on a concrete block: namespace `net` plus leaves
`port`, `timeout` — leaves first, alphabetical, entries preserved. -/
theorem stub_block_order_witness :
    nsAfterLeaves (sortChildren
      [("net", Node.dict []), ("timeout", Node.leaf "Optional[float]" ""),
       ("port", Node.leaf "int" "")])
    ∧ (leafNames (sortChildren
      [("net", Node.dict []), ("timeout", Node.leaf "Optional[float]" ""),
       ("port", Node.leaf "int" "")])).Pairwise (fun a b => pyLeS a b = true)
    ∧ List.Perm (sortChildren
      [("net", Node.dict []), ("timeout", Node.leaf "Optional[float]" ""),
       ("port", Node.leaf "int" "")])
      [("net", Node.dict []), ("timeout", Node.leaf "Optional[float]" ""),
       ("port", Node.leaf "int" "")] :=
  stub_block_order
    [("net", Node.dict []), ("timeout", Node.leaf "Optional[float]" ""),
     ("port", Node.leaf "int" "")]
    (by decide)

/-! ## Runtime configuration instances

A runtime value is either an opaque plain value (`prim`, modelling the
ordinary default values such as numbers and strings, which have no relevant
attributes) or an object with a class and an insertion-ordered instance
attribute dict.  A class is the generated base `Config` class (`base`) or a
user section class identified by name (`user`).  An `Env` holds the
process-wide state: each user class's public class-level default attributes
(plain values) and the `_name_to_config` registry (dotted path → class).

Python objects are mutated in place; since every object in the structures
built here is freshly created (no aliasing), functional update is an exact
model.  A Python `AttributeError`/`TypeError` is modelled as `none`; partial
mutations performed before an exception are not observable by any of the
functions modelled, so they are dropped. -/

inductive CName : Type where
  | base
  | user (cid : String)
deriving DecidableEq

inductive PVal : Type where
  | prim (n : Nat)
  | obj (cls : CName) (attrs : List (String × PVal))

structure Env : Type where
  classDefaults : List (String × List (String × Nat))
  registry : List (String × String)

/-- The public class-level attributes of a class (the generated `Config` base
class is empty). -/
def classDefaultsOf (env : Env) (c : CName) : List (String × Nat) :=
  match c with
  | .base => []
  | .user cid => (List.lookup cid env.classDefaults).getD []

/-- `getattr(o, k)`: instance attribute first, then the class default. -/
def getattrE (env : Env) (o : PVal) (k : String) : Option PVal :=
  match o with
  | .prim _ => none
  | .obj c attrs =>
    match List.lookup k attrs with
    | some v => some v
    | none => (List.lookup k (classDefaultsOf env c)).map PVal.prim

/-- `_recursive_getattr(o, keys)` (lines 30–33); raises on a missing
attribute, and is never called with an empty key list. -/
def rGetattr (env : Env) : PVal → List String → Option PVal
  | _, [] => none
  | o, [k] => getattrE env o k
  | o, k :: k2 :: rest => (getattrE env o k).bind (fun w => rGetattr env w (k2 :: rest))

/-- Proof-side helper: like `rGetattr` but total at `[]` (returns the object
itself), so that it composes along `++`. -/
def pathFetch (env : Env) : PVal → List String → Option PVal
  | o, [] => some o
  | o, k :: rest => (getattrE env o k).bind (fun w => pathFetch env w rest)

theorem rGetattr_eq_pathFetch (env : Env) :
    ∀ (ks : List String) (o : PVal), ks ≠ [] → rGetattr env o ks = pathFetch env o ks := by
  intro ks
  induction ks with
  | nil => intro o h; exact absurd rfl h
  | cons k rest ih =>
    intro o _
    cases rest with
    | nil =>
      simp only [rGetattr, pathFetch]
      cases getattrE env o k with
      | none => rfl
      | some w => rfl
    | cons k2 r2 =>
      simp only [rGetattr, pathFetch]
      cases getattrE env o k with
      | none => rfl
      | some w => exact ih w (by simp)

theorem pathFetch_append (env : Env) :
    ∀ (p q : List String) (o : PVal),
      pathFetch env o (p ++ q) = (pathFetch env o p).bind (fun w => pathFetch env w q) := by
  intro p
  induction p with
  | nil => intro q o; rfl
  | cons k rest ih =>
    intro q o
    simp only [List.cons_append, pathFetch]
    cases getattrE env o k with
    | none => rfl
    | some w => exact ih q w

/-- `_recursive_creative_setattr(o, keys, _Config_cls, value)` (lines 21–27):
walks the chain, creating a fresh `_Config_cls()` instance for a missing
intermediate attribute, and sets the final attribute.  When an intermediate
exists but is a plain value (instance attribute or shared class default),
Python ends up calling `setattr` on a plain value and raises
`AttributeError`: modelled as `none`. -/
def rcSet (env : Env) : PVal → List String → PVal → Option PVal
  | .prim _, _ :: _, _ => none
  | .obj c attrs, [k], v => some (.obj c (dinsert attrs k v))
  | .obj c attrs, k :: k2 :: rest, v =>
    match List.lookup k attrs with
    | some child =>
      (rcSet env child (k2 :: rest) v).map (fun child2 => .obj c (dinsert attrs k child2))
    | none =>
      if (List.lookup k (classDefaultsOf env c)).isSome then
        none
      else
        (rcSet env (.obj .base []) (k2 :: rest) v).map
          (fun child2 => .obj c (dinsert attrs k child2))
  | _, [], _ => none

/-- `update_config(config, config_dict)` (lines 237–239): one
`_recursive_creative_setattr` per entry, in dict order.  Python mutates
`config`; the model returns the updated instance. -/
def update_config (env : Env) (config : PVal) (updates : List (String × PVal)) : Option PVal :=
  updates.foldlM (fun cfg p => rcSet env cfg (splitDots p.1) p.2) config

/-- `make_config()` (lines 228–234): instantiate the `@base` class (or the
generated `Config` class), then attach a fresh instance of every other
registered section's class at its dotted path, iterating
`sorted(_name_to_config.items())` (tuples sort by their first component; key
ties are impossible since dict keys are unique). -/
def make_config (env : Env) : Option PVal :=
  (List.insertionSort (keyRel Prod.fst) env.registry).foldlM
    (fun cfg p =>
      if p.1 == "@base" then some cfg
      else rcSet env cfg (splitDots p.1) (.obj (.user p.2) []))
    (.obj (match List.lookup "@base" env.registry with
           | some cid => .user cid
           | none => .base) [])

/-- `check_config(config)` (lines 249–256): walks every registered section
path (which raises if a path is unreachable); the per-attribute check only
prints warnings, so it has no observable effect here. -/
def check_config (env : Env) (config : PVal) : Option Unit :=
  env.registry.foldlM
    (fun _ p =>
      if p.1 == "@base" then some ()
      else (rGetattr env config (splitDots p.1)).map (fun _ => ()))
    ()

/-- `config_from_dict(config_dict)` (lines 242–246). -/
def config_from_dict (env : Env) (d : List (String × PVal)) : Option PVal := do
  let config ← make_config env
  let config2 ← update_config env config d
  let _ ← check_config env config2
  pure config2

/-- `tuple(_name_to_config.values())`. -/
def registryClasses (env : Env) : List String := env.registry.map Prod.snd

/-- `isinstance(o, config_classes)` where
`config_classes = tuple(_name_to_config.values()) + (_Config_cls,)`. -/
def isConfigInstance (env : Env) (o : PVal) : Bool :=
  match o with
  | .prim _ => false
  | .obj .base _ => true
  | .obj (.user cid) _ => (registryClasses env).contains cid

/-- `dir(subcfg)`: the sorted, deduplicated union of instance and class
attribute names (plain values have no relevant attributes in the model). -/
def dirNames (env : Env) (o : PVal) : List String :=
  match o with
  | .prim _ => []
  | .obj c attrs =>
    List.insertionSort (keyRel id)
      ((attrs.map Prod.fst ++ (classDefaultsOf env c).map Prod.fst).dedup)

/-- One step of the inner loop of `config_to_dict` (lines 269–275): a
non-dunder name whose value is not a config-class instance is collected
under its dotted key.  (`getattr` succeeds for every `dir()` name; the
unreachable `none` arm skips.) -/
def ctdStep (env : Env) (subcfg : PVal) (csplit : List String)
    (d : List (String × PVal)) (i : String) : List (String × PVal) :=
  if startsDunder i then d
  else
    match getattrE env subcfg i with
    | none => d
    | some o =>
      if isConfigInstance env o then d
      else dinsert d (joinDots (csplit ++ [i])) o

/-- The inner loop of `config_to_dict` over the `dir()` names. -/
def ctdAttrs (env : Env) (subcfg : PVal) (csplit : List String)
    (d : List (String × PVal)) (names : List String) : List (String × PVal) :=
  names.foldl (ctdStep env subcfg csplit) d

/-- One registered section's contribution to `config_to_dict` (lines 262–275):
resolve the section object (the root itself for `@base`, raising if the path
is unreachable), then collect its attributes. -/
def ctdSection (env : Env) (config : PVal) (d : List (String × PVal))
    (p : String × String) : Option (List (String × PVal)) :=
  let csplit := if p.1 == "@base" then [] else splitDots p.1
  (if p.1 == "@base" then some config else rGetattr env config csplit).map
    (fun subcfg => ctdAttrs env subcfg csplit d (dirNames env subcfg))

/-- `config_to_dict(config)` (lines 259–276): for every registered section
path (the root for `@base`), collect each non-dunder `dir()` attribute whose
value is not an instance of a registered class or the base class, keyed by
the dotted path. -/
def config_to_dict (env : Env) (config : PVal) : Option (List (String × PVal)) :=
  env.registry.foldlM (ctdSection env config) []

theorem getattrE_dinsert_self (env : Env) (c : CName) (attrs : List (String × PVal))
    (k : String) (v : PVal) :
    getattrE env (.obj c (dinsert attrs k v)) k = some v := by
  simp [getattrE, lookup_dinsert_self]

theorem getattrE_dinsert_ne (env : Env) (c : CName) (attrs : List (String × PVal))
    {k k' : String} (v : PVal) (h : k' ≠ k) :
    getattrE env (.obj c (dinsert attrs k v)) k' = getattrE env (.obj c attrs) k' := by
  simp only [getattrE]
  rw [lookup_dinsert_ne _ _ h]

theorem pathFetch_single (env : Env) (o : PVal) (k : String) :
    pathFetch env o [k] = getattrE env o k := by
  simp only [pathFetch]
  cases getattrE env o k with
  | none => rfl
  | some w => rfl

theorem pathFetch_cons (env : Env) (o : PVal) (k : String) (rest : List String) :
    pathFetch env o (k :: rest) =
      (getattrE env o k).bind (fun w => pathFetch env w rest) := rfl

theorem rcSet_cons_cons (env : Env) (c : CName) (attrs : List (String × PVal))
    (k : String) (rest : List String) (v : PVal) (h : rest ≠ []) :
    rcSet env (.obj c attrs) (k :: rest) v =
      (match List.lookup k attrs with
       | some child =>
         (rcSet env child rest v).map (fun child2 => PVal.obj c (dinsert attrs k child2))
       | none =>
         if (List.lookup k (classDefaultsOf env c)).isSome then none
         else
           (rcSet env (.obj .base []) rest v).map
             (fun child2 => PVal.obj c (dinsert attrs k child2))) := by
  cases rest with
  | nil => exact absurd rfl h
  | cons k2 r2 => rfl

theorem rcSet_root_cls (env : Env) :
    ∀ (ks : List String) (c : CName) (attrs : List (String × PVal)) (v o' : PVal),
      rcSet env (.obj c attrs) ks v = some o' → ∃ attrs2, o' = .obj c attrs2 := by
  intro ks c attrs v o' h
  cases ks with
  | nil => simp [rcSet] at h
  | cons k rest =>
    cases rest with
    | nil =>
      simp only [rcSet, Option.some.injEq] at h
      exact ⟨_, h.symm⟩
    | cons k2 r2 =>
      simp only [rcSet] at h
      cases hl : List.lookup k attrs with
      | some child =>
        rw [hl] at h
        rcases Option.map_eq_some'.mp h with ⟨w, _, hw⟩
        exact ⟨_, hw.symm⟩
      | none =>
        rw [hl] at h
        by_cases hc : (List.lookup k (classDefaultsOf env c)).isSome
        · rw [if_pos hc] at h
          exact Option.noConfusion h
        · rw [if_neg hc] at h
          rcases Option.map_eq_some'.mp h with ⟨w, _, hw⟩
          exact ⟨_, hw.symm⟩

theorem pathFetch_fresh_base (env : Env) (ks : List String) (h : ks ≠ []) :
    pathFetch env (.obj .base []) ks = none := by
  cases ks with
  | nil => exact absurd rfl h
  | cons k rest =>
    rw [pathFetch_cons]
    have : getattrE env (.obj .base []) k = none := by
      simp [getattrE, classDefaultsOf, List.lookup]
    rw [this]
    rfl

theorem getattrE_obj_none_iff (env : Env) (c : CName) (attrs : List (String × PVal))
    (k : String) :
    getattrE env (.obj c attrs) k = none ↔
      List.lookup k attrs = none ∧ List.lookup k (classDefaultsOf env c) = none := by
  simp only [getattrE]
  cases hl : List.lookup k attrs with
  | some v => simp
  | none => simp [Option.map_eq_none']

/-- The workhorse for C7: under walkable intermediates,
`_recursive_creative_setattr` succeeds, sets the final attribute, and fills
every missing intermediate with a fresh instance of the base class. -/
theorem rcSet_spec (env : Env) (v : PVal) :
    ∀ (ks : List String) (last : String) (c : CName) (attrs : List (String × PVal)),
      (∀ m, 0 < m → m ≤ ks.length →
         (pathFetch env (.obj c attrs) (ks.take m) = none ∨
          ∃ c2 a2, pathFetch env (.obj c attrs) (ks.take m) = some (.obj c2 a2))) →
      ∃ o', rcSet env (.obj c attrs) (ks ++ [last]) v = some o'
        ∧ pathFetch env o' (ks ++ [last]) = some v
        ∧ (∀ m, 0 < m → m ≤ ks.length →
            pathFetch env (.obj c attrs) (ks.take m) = none →
            ∃ a2, pathFetch env o' (ks.take m) = some (.obj CName.base a2)) := by
  intro ks
  induction ks with
  | nil =>
    intro last c attrs _
    refine ⟨.obj c (dinsert attrs last v), rfl, ?_, ?_⟩
    · rw [List.nil_append, pathFetch_single]
      exact getattrE_dinsert_self env c attrs last v
    · intro m hm hle _
      simp at hle
      omega
  | cons k ks' ih =>
    intro last c attrs hwalk
    have h1 := hwalk 1 (by omega) (by simp)
    rw [show List.take 1 (k :: ks') = [k] by simp, pathFetch_single] at h1
    cases hga : getattrE env (.obj c attrs) k with
    | none =>
      obtain ⟨hli, hlc⟩ := (getattrE_obj_none_iff env c attrs k).mp hga
      have hwalk' : ∀ m, 0 < m → m ≤ ks'.length →
          (pathFetch env (.obj CName.base []) (ks'.take m) = none ∨
           ∃ c2 a2, pathFetch env (.obj CName.base []) (ks'.take m) = some (.obj c2 a2)) := by
        intro m hm hle
        left
        apply pathFetch_fresh_base
        intro habs
        have := congrArg List.length habs
        simp only [List.length_take, List.length_nil] at this
        omega
      obtain ⟨child', hrc, hpf, hint⟩ := ih last .base [] hwalk'
      refine ⟨.obj c (dinsert attrs k child'), ?_, ?_, ?_⟩
      · rw [List.cons_append, rcSet_cons_cons _ _ _ _ _ _ (by simp)]
        simp only [hli, hlc, Option.isSome_none, Bool.false_eq_true, if_false, hrc,
          Option.map_some']
      · rw [List.cons_append, pathFetch_cons, getattrE_dinsert_self]
        exact hpf
      · intro m hm hle hnone
        cases m with
        | zero => omega
        | succ m' =>
          rw [show List.take (m' + 1) (k :: ks') = k :: List.take m' ks' by simp] at hnone ⊢
          rw [pathFetch_cons, getattrE_dinsert_self]
          cases m' with
          | zero =>
            rcases rcSet_root_cls env _ _ _ _ _ hrc with ⟨a2, ha2⟩
            refine ⟨a2, ?_⟩
            simp only [List.take_zero, pathFetch, Option.some_bind]
            rw [ha2]
          | succ m2 =>
            have hm2 : 0 < m2 + 1 := by omega
            have hle2 : m2 + 1 ≤ ks'.length := by simp at hle; omega
            have hfresh : pathFetch env (.obj CName.base []) (ks'.take (m2 + 1)) = none := by
              apply pathFetch_fresh_base
              intro habs
              have := congrArg List.length habs
              simp only [List.length_take, List.length_nil] at this
              omega
            rcases hint (m2 + 1) hm2 hle2 hfresh with ⟨a2, ha2⟩
            exact ⟨a2, ha2⟩
    | some w =>
      cases hli : List.lookup k attrs with
      | none =>
        exfalso
        have hga2 : getattrE env (.obj c attrs) k =
            (List.lookup k (classDefaultsOf env c)).map PVal.prim := by
          simp only [getattrE, hli]
        rw [hga] at hga2
        rcases Option.map_eq_some'.mp hga2.symm with ⟨p0, _, hp0⟩
        rcases h1 with h1 | ⟨c2, a2, h1⟩
        · rw [hga] at h1
          exact Option.noConfusion h1
        · rw [hga] at h1
          have hw := Option.some.inj h1
          rw [← hp0] at hw
          exact PVal.noConfusion hw
      | some child =>
        have hwchild : w = child := by
          rw [getattrE, hli] at hga
          exact (Option.some.inj hga).symm
        subst hwchild
        rcases h1 with h1 | ⟨c2, a2, h1⟩
        · rw [hga] at h1
          exact Option.noConfusion h1
        · rw [hga] at h1
          have hchild : w = PVal.obj c2 a2 := Option.some.inj h1
          subst hchild
          have hwalk' : ∀ m, 0 < m → m ≤ ks'.length →
              (pathFetch env (.obj c2 a2) (ks'.take m) = none ∨
               ∃ c3 a3, pathFetch env (.obj c2 a2) (ks'.take m) = some (.obj c3 a3)) := by
            intro m hm hle
            have := hwalk (m + 1) (by omega) (by simp; omega)
            rw [show List.take (m + 1) (k :: ks') = k :: List.take m ks' by simp,
              pathFetch_cons, hga] at this
            simpa using this
          obtain ⟨child', hrc, hpf, hint⟩ := ih last c2 a2 hwalk'
          refine ⟨.obj c (dinsert attrs k child'), ?_, ?_, ?_⟩
          · rw [List.cons_append, rcSet_cons_cons _ _ _ _ _ _ (by simp)]
            simp only [hli, hrc, Option.map_some']
          · rw [List.cons_append, pathFetch_cons, getattrE_dinsert_self]
            exact hpf
          · intro m hm hle hnone
            cases m with
            | zero => omega
            | succ m' =>
              rw [show List.take (m' + 1) (k :: ks') = k :: List.take m' ks' by simp]
                at hnone ⊢
              rw [pathFetch_cons, getattrE_dinsert_self]
              rw [pathFetch_cons, hga] at hnone
              cases m' with
              | zero => exact Option.noConfusion hnone
              | succ m2 =>
                have hm2 : 0 < m2 + 1 := by omega
                have hle2 : m2 + 1 ≤ ks'.length := by simp at hle; omega
                rcases hint (m2 + 1) hm2 hle2 (by simpa using hnone) with ⟨a3, ha3⟩
                exact ⟨a3, ha3⟩

theorem update_config_singleton (env : Env) (o : PVal) (p : String) (v : PVal) :
    update_config env o [(p, v)] = rcSet env o (splitDots p) v := by
  simp only [update_config, List.foldlM]
  cases rcSet env o (splitDots p) v with
  | none => rfl
  | some w => rfl

/-! ### Claim theorems C7 -/

/-- C7 as stated is false: on an instance whose attribute `a` holds the plain
value `5`, `update_config(instance, {"a.b": 7})` does not set `b = 7` — the
walk reaches a plain value and Python raises `AttributeError`
(`setattr(5, "b", 7)`), modelled as `none`. -/
theorem update_config_counterexample :
    update_config ⟨[], []⟩ (.obj .base [("a", .prim 5)]) [("a.b", .prim 7)] = none := by
  rfl

/-- **C7 (amended).** For every instance and dotted path whose existing
intermediate positions are all objects (not plain values), `update_config`
with `{path: value}` walks the chain, creates a fresh base-class instance at
every missing intermediate, and sets the final-segment attribute to the
value, overwriting any existing one; a path through an existing plain value
instead raises. -/
theorem update_config_creates_and_sets (env : Env) (c : CName)
    (attrs : List (String × PVal)) (p : String) (v : PVal) (ks : List String) (last : String)
    (hsplit : splitDots p = ks ++ [last])
    (hwalk : ∀ m, 0 < m → m ≤ ks.length →
       (pathFetch env (.obj c attrs) (ks.take m) = none ∨
        ∃ c2 a2, pathFetch env (.obj c attrs) (ks.take m) = some (.obj c2 a2))) :
    ∃ o', update_config env (.obj c attrs) [(p, v)] = some o'
      ∧ rGetattr env o' (ks ++ [last]) = some v
      ∧ (∀ m, 0 < m → m ≤ ks.length →
          pathFetch env (.obj c attrs) (ks.take m) = none →
          ∃ a2, pathFetch env o' (ks.take m) = some (.obj CName.base a2)) := by
  obtain ⟨o', hrc, hpf, hint⟩ := rcSet_spec env v ks last c attrs hwalk
  refine ⟨o', ?_, ?_, hint⟩
  · rw [update_config_singleton, hsplit]
    exact hrc
  · rw [rGetattr_eq_pathFetch env (ks ++ [last]) o' (by simp)]
    exact hpf

/-- Witness for C7 (amended), Scenario D of the spec:
`update_config(instance, {"a.b.c": 5})` on an instance with no `a` creates
base-class namespace objects at `a` and `a.b` and sets `c = 5`. -/
theorem update_config_creates_and_sets_witness :
    ∃ o', update_config ⟨[], []⟩ (.obj .base []) [("a.b.c", .prim 5)] = some o'
      ∧ rGetattr ⟨[], []⟩ o' (["a", "b"] ++ ["c"]) = some (.prim 5)
      ∧ (∀ m, 0 < m → m ≤ (["a", "b"] : List String).length →
          pathFetch ⟨[], []⟩ (.obj .base []) ((["a", "b"] : List String).take m) = none →
          ∃ a2, pathFetch ⟨[], []⟩ o' ((["a", "b"] : List String).take m) =
            some (.obj CName.base a2)) :=
  update_config_creates_and_sets ⟨[], []⟩ .base [] "a.b.c" (.prim 5) ["a", "b"] "c"
    (by rfl)
    (by
      intro m hm hle
      left
      simp only [List.length_cons, List.length_nil] at hle
      interval_cases m
      · rfl
      · rfl)

/-! ## Well-formedness and the shape of `config_to_dict` output -/

/-- A usable Python attribute-name / path-segment: nonempty and dot-free
(attribute names are identifiers, so this always holds in practice). -/
def goodName (s : String) : Bool := dotFree s && !(s.data.isEmpty)

/-- Every attribute name anywhere in a value is a `goodName`. -/
inductive NamesOk : PVal → Prop where
  | prim (n : Nat) : NamesOk (.prim n)
  | obj (c : CName) (attrs : List (String × PVal))
      (hn : ∀ p ∈ attrs, goodName p.1 = true)
      (hr : ∀ p ∈ attrs, NamesOk p.2) : NamesOk (.obj c attrs)

/-- Well-formedness of the process-wide state: registry paths are unique and
split into good segments, and class default attribute names are good. -/
structure EnvOk (env : Env) : Prop where
  regNodup : (env.registry.map Prod.fst).Nodup
  regSegsOk : ∀ p ∈ env.registry, ∀ s ∈ splitDots p.1, goodName s = true
  defNamesOk : ∀ q ∈ env.classDefaults, ∀ a ∈ q.2, goodName a.1 = true

theorem NamesOk_getattrE {env : Env} {o w : PVal} {k : String}
    (ho : NamesOk o) (h : getattrE env o k = some w) : NamesOk w := by
  cases ho with
  | prim n => simp [getattrE] at h
  | obj c attrs hn hr =>
    simp only [getattrE] at h
    cases hl : List.lookup k attrs with
    | some v =>
      rw [hl] at h
      exact (Option.some.inj h) ▸ hr (k, v) (lookup_mem hl)
    | none =>
      rw [hl] at h
      rcases Option.map_eq_some'.mp h with ⟨p0, _, hp0⟩
      exact hp0 ▸ NamesOk.prim p0

theorem NamesOk_pathFetch {env : Env} {o w : PVal} {ks : List String}
    (ho : NamesOk o) (h : pathFetch env o ks = some w) : NamesOk w := by
  induction ks generalizing o with
  | nil => exact (Option.some.inj h) ▸ ho
  | cons k rest ih =>
    rw [pathFetch_cons] at h
    cases hg : getattrE env o k with
    | none => rw [hg] at h; exact Option.noConfusion h
    | some w2 =>
      rw [hg] at h
      exact ih (NamesOk_getattrE ho hg) h

theorem NamesOk_dinsert {c : CName} {attrs : List (String × PVal)} {k : String} {v : PVal}
    (h : NamesOk (.obj c attrs)) (hk : goodName k = true) (hv : NamesOk v) :
    NamesOk (.obj c (dinsert attrs k v)) := by
  cases h with
  | obj _ _ hn hr =>
    refine NamesOk.obj c _ ?_ ?_
    · intro p hp
      rcases mem_dinsert hp with h1 | h1
      · rw [h1]
        exact hk
      · exact hn p h1
    · intro p hp
      rcases mem_dinsert hp with h1 | h1
      · rw [h1]
        exact hv
      · exact hr p h1

theorem NamesOk_rcSet {env : Env} {v : PVal} (hv : NamesOk v) :
    ∀ (ks : List String) (o o' : PVal), NamesOk o →
      (∀ s ∈ ks, goodName s = true) → rcSet env o ks v = some o' → NamesOk o' := by
  intro ks
  induction ks with
  | nil =>
    intro o o' _ _ h
    cases o with
    | prim n => simp [rcSet] at h
    | obj c attrs => simp [rcSet] at h
  | cons k rest ih =>
    intro o o' ho hgood h
    cases o with
    | prim n => simp [rcSet] at h
    | obj c attrs =>
      cases rest with
      | nil =>
        simp only [rcSet, Option.some.injEq] at h
        subst h
        exact NamesOk_dinsert ho (hgood k (by simp)) hv
      | cons k2 r2 =>
        rw [rcSet_cons_cons _ _ _ _ _ _ (by simp)] at h
        cases hl : List.lookup k attrs with
        | some child =>
          rw [hl] at h
          rcases Option.map_eq_some'.mp h with ⟨child2, hc2, hco⟩
          have hchild : NamesOk child := by
            cases ho with
            | obj _ _ hn hr => exact hr (k, child) (lookup_mem hl)
          have := ih child child2 hchild (fun s hs => hgood s (by simp [hs])) hc2
          rw [← hco]
          exact NamesOk_dinsert ho (hgood k (by simp)) this
        | none =>
          rw [hl] at h
          by_cases hcd : (List.lookup k (classDefaultsOf env c)).isSome
          · rw [if_pos hcd] at h
            exact Option.noConfusion h
          · rw [if_neg hcd] at h
            rcases Option.map_eq_some'.mp h with ⟨child2, hc2, hco⟩
            have hfresh : NamesOk (.obj CName.base []) :=
              NamesOk.obj _ _ (by intro p hp; exact absurd hp (List.not_mem_nil p))
                (by intro p hp; exact absurd hp (List.not_mem_nil p))
            have := ih _ child2 hfresh (fun s hs => hgood s (by simp [hs])) hc2
            rw [← hco]
            exact NamesOk_dinsert ho (hgood k (by simp)) this

theorem NamesOk_update_config {env : Env} {o o' : PVal}
    {updates : List (String × PVal)} (ho : NamesOk o)
    (hupd : ∀ kv ∈ updates, NamesOk kv.2 ∧ ∀ s ∈ splitDots kv.1, goodName s = true)
    (h : update_config env o updates = some o') : NamesOk o' := by
  induction updates generalizing o with
  | nil =>
    simp only [update_config, List.foldlM] at h
    exact (Option.some.inj h) ▸ ho
  | cons kv rest ih =>
    simp only [update_config, List.foldlM] at h ⊢
    cases hstep : rcSet env o (splitDots kv.1) kv.2 with
    | none => rw [hstep] at h; exact Option.noConfusion h
    | some o2 =>
      rw [hstep] at h
      have h2 : NamesOk o2 :=
        NamesOk_rcSet (hupd kv (by simp)).1 _ o o2 ho (hupd kv (by simp)).2 hstep
      exact ih h2 (fun p hp => hupd p (by simp [hp])) h

/-- Names listed by `dir()` are instance-attribute or class-default names. -/
theorem mem_dirNames {env : Env} {o : PVal} {i : String} (h : i ∈ dirNames env o) :
    ∃ c attrs, o = .obj c attrs ∧
      (i ∈ attrs.map Prod.fst ∨ i ∈ (classDefaultsOf env c).map Prod.fst) := by
  cases o with
  | prim n => simp [dirNames] at h
  | obj c attrs =>
    refine ⟨c, attrs, rfl, ?_⟩
    unfold dirNames at h
    have h2 := (List.perm_insertionSort (keyRel id) _).mem_iff.mp h
    have h3 := (List.mem_dedup).mp h2
    exact List.mem_append.mp h3

theorem goodName_of_dirNames {env : Env} {o : PVal} {i : String}
    (henv : EnvOk env) (ho : NamesOk o) (h : i ∈ dirNames env o) :
    goodName i = true := by
  rcases mem_dirNames h with ⟨c, attrs, hoe, hcase⟩
  subst hoe
  rcases hcase with hcase | hcase
  · rcases List.mem_map.mp hcase with ⟨p, hp, hpi⟩
    cases ho with
    | obj _ _ hn hr => exact hpi ▸ hn p hp
  · rcases List.mem_map.mp hcase with ⟨a, ha, hai⟩
    cases c with
    | base => simp [classDefaultsOf] at ha
    | user cid =>
      simp only [classDefaultsOf] at ha
      cases hl : List.lookup cid env.classDefaults with
      | none => rw [hl] at ha; simp at ha
      | some ds =>
        rw [hl] at ha
        simp only [Option.getD_some] at ha
        exact hai ▸ henv.defNamesOk (cid, ds) (lookup_mem hl) a ha

theorem goodName_dotFree {s : String} (h : goodName s = true) : dotFree s = true := by
  unfold goodName at h
  exact (Bool.and_eq_true _ _ ▸ h).1

theorem append_singleton_inj {α : Type} {xs ys : List α} {x y : α}
    (h : xs ++ [x] = ys ++ [y]) : xs = ys ∧ x = y := by
  have h1 := congrArg List.reverse h
  simp only [List.reverse_append, List.reverse_cons, List.reverse_nil, List.nil_append,
    List.singleton_append, List.cons.injEq] at h1
  exact ⟨by
    have := congrArg List.reverse h1.2
    simpa using this, h1.1⟩

theorem joinDots_append_inj {xs ys : List String} {x y : String}
    (hx : ∀ s ∈ xs ++ [x], goodName s = true)
    (hy : ∀ s ∈ ys ++ [y], goodName s = true)
    (h : joinDots (xs ++ [x]) = joinDots (ys ++ [y])) : xs = ys ∧ x = y := by
  have h1 : splitDots (joinDots (xs ++ [x])) = xs ++ [x] :=
    splitDots_joinDots (by simp) (fun s hs => goodName_dotFree (hx s hs))
  have h2 : splitDots (joinDots (ys ++ [y])) = ys ++ [y] :=
    splitDots_joinDots (by simp) (fun s hs => goodName_dotFree (hy s hs))
  rw [h] at h1
  rw [h2] at h1
  rcases append_singleton_inj h1 with ⟨ha, hb⟩
  exact ⟨ha.symm, hb.symm⟩

theorem mem_ctdStep {env : Env} {subcfg : PVal} {csplit : List String}
    {d : List (String × PVal)} {i : String} {kv : String × PVal}
    (h : kv ∈ ctdStep env subcfg csplit d i) :
    kv ∈ d ∨ (startsDunder i = false ∧ getattrE env subcfg i = some kv.2 ∧
      isConfigInstance env kv.2 = false ∧ kv.1 = joinDots (csplit ++ [i])) := by
  unfold ctdStep at h
  cases hdun : startsDunder i with
  | true => rw [hdun] at h; simp at h; exact Or.inl h
  | false =>
    rw [hdun] at h
    simp only [Bool.false_eq_true, if_false] at h
    cases hg : getattrE env subcfg i with
    | none => rw [hg] at h; exact Or.inl h
    | some o =>
      rw [hg] at h
      have h2 : kv ∈ (if isConfigInstance env o = true then d
          else dinsert d (joinDots (csplit ++ [i])) o) := h
      cases hc : isConfigInstance env o with
      | true => rw [hc] at h2; simp at h2; exact Or.inl h2
      | false =>
        rw [hc] at h2
        simp only [Bool.false_eq_true, if_false] at h2
        rcases mem_dinsert h2 with h1 | h1
        · right
          subst h1
          exact ⟨rfl, rfl, hc, rfl⟩
        · exact Or.inl h1

theorem mem_ctdAttrs {env : Env} {subcfg : PVal} {csplit : List String} :
    ∀ (names : List String) (d : List (String × PVal)) (kv : String × PVal),
      kv ∈ ctdAttrs env subcfg csplit d names →
      kv ∈ d ∨ ∃ i, i ∈ names ∧ startsDunder i = false ∧
        getattrE env subcfg i = some kv.2 ∧ isConfigInstance env kv.2 = false ∧
        kv.1 = joinDots (csplit ++ [i]) := by
  intro names
  induction names with
  | nil => intro d kv h; exact Or.inl h
  | cons i rest ih =>
    intro d kv h
    simp only [ctdAttrs, List.foldl_cons] at h
    rcases ih (ctdStep env subcfg csplit d i) kv h with h1 | ⟨i2, hi2, hprops⟩
    · rcases mem_ctdStep h1 with h2 | h2
      · exact Or.inl h2
      · exact Or.inr ⟨i, by simp, h2.1, h2.2.1, h2.2.2.1, h2.2.2.2⟩
    · exact Or.inr ⟨i2, by simp [hi2], hprops⟩

theorem mem_ctd_fold (env : Env) (config : PVal) :
    ∀ (regs : List (String × String)) (d0 d : List (String × PVal)),
      List.foldlM (ctdSection env config) d0 regs = some d →
      ∀ kv ∈ d, kv ∈ d0 ∨
        ∃ q, q ∈ regs ∧ ∃ subcfg i,
          (if q.1 == "@base" then some config
           else rGetattr env config (splitDots q.1)) = some subcfg
          ∧ i ∈ dirNames env subcfg ∧ startsDunder i = false
          ∧ getattrE env subcfg i = some kv.2 ∧ isConfigInstance env kv.2 = false
          ∧ kv.1 = joinDots ((if q.1 == "@base" then [] else splitDots q.1) ++ [i]) := by
  intro regs
  induction regs with
  | nil =>
    intro d0 d h kv hkv
    simp only [List.foldlM] at h
    exact Or.inl ((Option.some.inj h) ▸ hkv)
  | cons q rest ih =>
    intro d0 d h kv hkv
    simp only [List.foldlM] at h
    cases hq : ctdSection env config d0 q with
    | none => rw [hq] at h; exact Option.noConfusion h
    | some d1 =>
      rw [hq] at h
      rcases ih d1 d h kv hkv with h1 | ⟨q2, hq2, hrest⟩
      · simp only [ctdSection] at hq
        rcases Option.map_eq_some'.mp hq with ⟨subcfg, hsub, hctd⟩
        have hsub2 : (if (q.1 == "@base") = true then some config
            else rGetattr env config (splitDots q.1)) = some subcfg := by
          by_cases hbase : (q.1 == "@base") = true
          · rw [if_pos hbase] at hsub ⊢
            exact hsub
          · rw [if_neg hbase] at hsub ⊢
            rw [if_neg hbase] at hsub
            exact hsub
        rw [← hctd] at h1
        rcases mem_ctdAttrs _ _ _ h1 with h2 | ⟨i, hi, hprops⟩
        · exact Or.inl h2
        · exact Or.inr ⟨q, by simp, subcfg, i, hsub2, hi, hprops⟩
      · exact Or.inr ⟨q2, by simp [hq2], hrest⟩

theorem mem_config_to_dict {env : Env} {config : PVal} {d : List (String × PVal)}
    (hd : config_to_dict env config = some d) :
    ∀ kv ∈ d,
      ∃ q, q ∈ env.registry ∧ ∃ subcfg i,
        (if q.1 == "@base" then some config
         else rGetattr env config (splitDots q.1)) = some subcfg
        ∧ i ∈ dirNames env subcfg ∧ startsDunder i = false
        ∧ getattrE env subcfg i = some kv.2 ∧ isConfigInstance env kv.2 = false
        ∧ kv.1 = joinDots ((if q.1 == "@base" then [] else splitDots q.1) ++ [i]) := by
  intro kv hkv
  rcases mem_ctd_fold env config env.registry [] d hd kv hkv with h1 | h1
  · exact absurd h1 (List.not_mem_nil kv)
  · exact h1

theorem mk_data (s : String) : String.mk s.data = s := by
  cases s
  rfl

theorem splitDots_of_dotFree {i : String} (h : dotFree i = true) : splitDots i = [i] := by
  unfold splitDots
  rw [splitChDot_no_dot (dotFree_iff.mp h)]
  simp [mk_data]

/-! ### Claim theorem C10 -/

/-- **C10.** `config_to_dict` only reads the objects at registered section
paths (the root for `@base`), skipping attributes whose value is an instance
of a registered section class or the base class (first conjunct: every
collected value is a non-config value).  Consequently a value stored by
`update_config` under a dotted path none of whose proper prefixes is a
registered section path is absent from the returned mapping (second
conjunct). -/
theorem config_to_dict_skips_unregistered (env : Env) (inst inst' v : PVal)
    (p : String) (q : List String) (last : String) (d : List (String × PVal))
    (henv : EnvOk env) (hinst : NamesOk inst) (hv : NamesOk v)
    (hq : q ≠ []) (hsplit : splitDots p = q ++ [last])
    (hgood : ∀ s ∈ splitDots p, goodName s = true)
    (hpar : ∀ m, 0 < m → m ≤ q.length → joinDots (q.take m) ∉ env.registry.map Prod.fst)
    (hupd : update_config env inst [(p, v)] = some inst')
    (hd : config_to_dict env inst' = some d) :
    (∀ kv ∈ d, isConfigInstance env kv.2 = false) ∧ List.lookup p d = none := by
  have hinst' : NamesOk inst' := by
    apply NamesOk_update_config hinst ?_ hupd
    intro kv hkv
    simp only [List.mem_singleton] at hkv
    subst hkv
    exact ⟨hv, hgood⟩
  constructor
  · intro kv hkv
    rcases mem_config_to_dict hd kv hkv with ⟨_, _, _, _, _, _, _, _, hconf, _⟩
    exact hconf
  · cases hl : List.lookup p d with
    | none => rfl
    | some w =>
      exfalso
      have hmem := lookup_mem hl
      rcases mem_config_to_dict hd (p, w) hmem with
        ⟨sec, hsecreg, subcfg, i, hsub, hi, _, _, _, hkey⟩
      have hsubNames : NamesOk subcfg := by
        by_cases hbase : (sec.1 == "@base") = true
        · rw [if_pos hbase] at hsub
          exact (Option.some.inj hsub) ▸ hinst'
        · rw [if_neg hbase] at hsub
          rw [rGetattr_eq_pathFetch env _ _ (splitDots_ne_nil sec.1)] at hsub
          exact NamesOk_pathFetch hinst' hsub
      have higood : goodName i = true := goodName_of_dirNames henv hsubNames hi
      simp only at hkey
      by_cases hbase : (sec.1 == "@base") = true
      · rw [if_pos hbase] at hkey
        simp only [List.nil_append] at hkey
        have hpi : splitDots p = [i] := by
          rw [hkey, show joinDots [i] = i from rfl]
          exact splitDots_of_dotFree (goodName_dotFree higood)
        rw [hsplit] at hpi
        have := congrArg List.length hpi
        simp only [List.length_append, List.length_cons, List.length_nil] at this
        cases q with
        | nil => exact hq rfl
        | cons a b => simp at this
      · rw [if_neg hbase] at hkey
        have hp2 : joinDots (q ++ [last]) = joinDots (splitDots sec.1 ++ [i]) := by
          rw [← hsplit, joinDots_splitDots]
          exact hkey
        have hinj := joinDots_append_inj
          (by rw [← hsplit]; exact hgood)
          (by
            intro s hs
            rcases List.mem_append.mp hs with hs | hs
            · exact henv.regSegsOk sec hsecreg s hs
            · simp only [List.mem_singleton] at hs
              exact hs ▸ higood)
          hp2
        have hqname : joinDots q = sec.1 := by
          rw [hinj.1, joinDots_splitDots]
        have hmemname : joinDots q ∈ env.registry.map Prod.fst := by
          rw [hqname]
          exact List.mem_map.mpr ⟨sec, hsecreg, rfl⟩
        have hlen : 0 < q.length := by
          cases q with
          | nil => exact absurd rfl hq
          | cons a b => simp
        apply hpar q.length hlen (Nat.le_refl _)
        rw [List.take_length]
        exact hmemname

/-- Witness for C10: with only `@base` registered, a value stored at
`"x.y"` (unregistered prefix `x`) is absent from `config_to_dict`'s output,
which is empty here. -/
theorem config_to_dict_skips_unregistered_witness :
    (∀ kv ∈ ([] : List (String × PVal)),
       isConfigInstance ⟨[("R", [])], [("@base", "R")]⟩ kv.2 = false)
    ∧ List.lookup "x.y" ([] : List (String × PVal)) = none :=
  config_to_dict_skips_unregistered ⟨[("R", [])], [("@base", "R")]⟩
    (.obj (.user "R") []) (.obj (.user "R") [("x", .obj .base [("y", .prim 5)])]) (.prim 5)
    "x.y" ["x"] "y" []
    ⟨by decide, by decide, by decide⟩
    (NamesOk.obj _ _ (by intro pr hpr; exact absurd hpr (List.not_mem_nil pr))
      (by intro pr hpr; exact absurd hpr (List.not_mem_nil pr)))
    (NamesOk.prim 5)
    (by simp) (by decide) (by decide)
    (by
      intro m hm hle
      simp only [List.length_cons, List.length_nil] at hle
      have hm1 : m = 1 := by omega
      subst hm1
      decide)
    (by rfl) (by rfl)

/-! ## Round-trip machinery (C5)

Every object inside a `make_config()` result is an instance of a registered
class or of the base class (`ObjsReg`); hence everything `config_to_dict`
collects is a plain value that `getattr` already yields at its dotted path,
and re-applying `update_config` only rewrites attributes with the values
they already present. -/

/-- Every object value reachable in the attribute tree is an instance of a
registered section class or of the generated base class. -/
inductive ObjsReg (env : Env) : PVal → Prop where
  | prim (n : Nat) : ObjsReg env (.prim n)
  | obj (c : CName) (attrs : List (String × PVal))
      (hc : isConfigInstance env (.obj c attrs) = true)
      (hr : ∀ p ∈ attrs, ObjsReg env p.2) : ObjsReg env (.obj c attrs)

theorem ObjsReg_getattrE {env : Env} {o w : PVal} {k : String}
    (ho : ObjsReg env o) (h : getattrE env o k = some w) : ObjsReg env w := by
  cases ho with
  | prim n => simp [getattrE] at h
  | obj c attrs hc hr =>
    simp only [getattrE] at h
    cases hl : List.lookup k attrs with
    | some v =>
      rw [hl] at h
      exact (Option.some.inj h) ▸ hr (k, v) (lookup_mem hl)
    | none =>
      rw [hl] at h
      rcases Option.map_eq_some'.mp h with ⟨p0, _, hp0⟩
      exact hp0 ▸ ObjsReg.prim p0

theorem ObjsReg_pathFetch {env : Env} {o w : PVal} {ks : List String}
    (ho : ObjsReg env o) (h : pathFetch env o ks = some w) : ObjsReg env w := by
  induction ks generalizing o with
  | nil => exact (Option.some.inj h) ▸ ho
  | cons k rest ih =>
    rw [pathFetch_cons] at h
    cases hg : getattrE env o k with
    | none => rw [hg] at h; exact Option.noConfusion h
    | some w2 =>
      rw [hg] at h
      exact ih (ObjsReg_getattrE ho hg) h

/-- A collected value (not a config instance) reachable inside an `ObjsReg`
tree is a plain value. -/
theorem ObjsReg_nonconfig_prim {env : Env} {w : PVal}
    (hw : ObjsReg env w) (h : isConfigInstance env w = false) : ∃ n, w = .prim n := by
  cases hw with
  | prim n => exact ⟨n, rfl⟩
  | obj c attrs hc _ =>
    rw [hc] at h
    exact Bool.noConfusion h

theorem isConfigInstance_obj_attrs (env : Env) (c : CName)
    (a1 a2 : List (String × PVal)) :
    isConfigInstance env (.obj c a1) = isConfigInstance env (.obj c a2) := by
  cases c <;> rfl

theorem ObjsReg_dinsert {env : Env} {c : CName} {attrs : List (String × PVal)}
    {k : String} {v : PVal}
    (h : ObjsReg env (.obj c attrs)) (hv : ObjsReg env v) :
    ObjsReg env (.obj c (dinsert attrs k v)) := by
  cases h with
  | obj _ _ hc hr =>
    refine ObjsReg.obj c _ ?_ ?_
    · rw [isConfigInstance_obj_attrs env c _ attrs]
      exact hc
    · intro p hp
      rcases mem_dinsert hp with h1 | h1
      · rw [h1]
        exact hv
      · exact hr p h1

theorem ObjsReg_rcSet {env : Env} {v : PVal} (hv : ObjsReg env v) :
    ∀ (ks : List String) (o o' : PVal), ObjsReg env o →
      rcSet env o ks v = some o' → ObjsReg env o' := by
  intro ks
  induction ks with
  | nil =>
    intro o o' _ h
    cases o with
    | prim n => simp [rcSet] at h
    | obj c attrs => simp [rcSet] at h
  | cons k rest ih =>
    intro o o' ho h
    cases o with
    | prim n => simp [rcSet] at h
    | obj c attrs =>
      cases rest with
      | nil =>
        simp only [rcSet, Option.some.injEq] at h
        subst h
        exact ObjsReg_dinsert ho hv
      | cons k2 r2 =>
        rw [rcSet_cons_cons _ _ _ _ _ _ (by simp)] at h
        cases hl : List.lookup k attrs with
        | some child =>
          rw [hl] at h
          rcases Option.map_eq_some'.mp h with ⟨child2, hc2, hco⟩
          have hchild : ObjsReg env child := by
            cases ho with
            | obj _ _ hc hr => exact hr (k, child) (lookup_mem hl)
          have := ih child child2 hchild hc2
          rw [← hco]
          exact ObjsReg_dinsert ho this
        | none =>
          rw [hl] at h
          by_cases hcd : (List.lookup k (classDefaultsOf env c)).isSome
          · rw [if_pos hcd] at h
            exact Option.noConfusion h
          · rw [if_neg hcd] at h
            rcases Option.map_eq_some'.mp h with ⟨child2, hc2, hco⟩
            have hfresh : ObjsReg env (.obj CName.base []) :=
              ObjsReg.obj _ _ (by simp [isConfigInstance])
                (by intro p hp; exact absurd hp (List.not_mem_nil p))
            have := ih _ child2 hfresh hc2
            rw [← hco]
            exact ObjsReg_dinsert ho this

/-- The final workhorse for C5: setting a path to the plain value it already
fetches succeeds and preserves every plain-valued fetch. -/
theorem rcSet_preserve_prim (env : Env) :
    ∀ (ks : List String) (o : PVal) (n : Nat), ks ≠ [] →
      pathFetch env o ks = some (.prim n) →
      ∃ o', rcSet env o ks (.prim n) = some o' ∧
        ∀ Q m, pathFetch env o Q = some (.prim m) → pathFetch env o' Q = some (.prim m) := by
  intro ks
  induction ks with
  | nil => intro o n h; exact absurd rfl h
  | cons k rest ih =>
    intro o n _ hfetch
    cases o with
    | prim p0 =>
      rw [pathFetch_cons] at hfetch
      simp [getattrE] at hfetch
    | obj c attrs =>
      cases rest with
      | nil =>
        rw [pathFetch_single] at hfetch
        refine ⟨.obj c (dinsert attrs k (.prim n)), rfl, ?_⟩
        intro Q m hQ
        cases Q with
        | nil =>
          simp only [pathFetch] at hQ
          exact PVal.noConfusion (Option.some.inj hQ)
        | cons q1 qr =>
          rw [pathFetch_cons] at hQ ⊢
          by_cases hq1 : q1 = k
          · subst hq1
            rw [hfetch] at hQ
            cases qr with
            | nil =>
              simp only [pathFetch, Option.some_bind] at hQ
              rw [getattrE_dinsert_self]
              simp only [Option.some_bind, pathFetch]
              exact hQ
            | cons q2 qr2 =>
              simp only [Option.some_bind, pathFetch_cons] at hQ
              simp [getattrE] at hQ
          · rw [getattrE_dinsert_ne _ _ _ _ hq1]
            exact hQ
      | cons k2 r2 =>
        rw [pathFetch_cons] at hfetch
        cases hg : getattrE env (.obj c attrs) k with
        | none => rw [hg] at hfetch; exact Option.noConfusion hfetch
        | some w =>
          rw [hg, Option.some_bind] at hfetch
          cases hl : List.lookup k attrs with
          | none =>
            exfalso
            have hw : ∃ p0, w = PVal.prim p0 := by
              simp only [getattrE, hl] at hg
              rcases Option.map_eq_some'.mp hg with ⟨p0, _, hp0⟩
              exact ⟨p0, hp0.symm⟩
            rcases hw with ⟨p0, hp0⟩
            subst hp0
            rw [pathFetch_cons] at hfetch
            simp [getattrE] at hfetch
          | some child =>
            have hwc : w = child := by
              simp only [getattrE, hl] at hg
              exact (Option.some.inj hg).symm
            subst hwc
            obtain ⟨child', hrc, hpres⟩ := ih w n (by simp) hfetch
            refine ⟨.obj c (dinsert attrs k child'), ?_, ?_⟩
            · rw [rcSet_cons_cons _ _ _ _ _ _ (by simp)]
              simp only [hl, hrc, Option.map_some']
            · intro Q m hQ
              cases Q with
              | nil =>
                simp only [pathFetch] at hQ
                exact PVal.noConfusion (Option.some.inj hQ)
              | cons q1 qr =>
                rw [pathFetch_cons] at hQ ⊢
                by_cases hq1 : q1 = k
                · subst hq1
                  rw [getattrE_dinsert_self]
                  rw [hg, Option.some_bind] at hQ
                  rw [Option.some_bind]
                  exact hpres qr m hQ
                · rw [getattrE_dinsert_ne _ _ _ _ hq1]
                  exact hQ

/-- Applying a flat mapping of plain values that the instance already fetches
succeeds and preserves every plain-valued fetch. -/
theorem update_config_roundtrip (env : Env) :
    ∀ (D : List (String × PVal)) (c0 : PVal),
      (∀ kv ∈ D, ∃ n, kv.2 = PVal.prim n) →
      (∀ kv ∈ D, pathFetch env c0 (splitDots kv.1) = some kv.2) →
      ∃ c', update_config env c0 D = some c'
        ∧ ∀ Q m, pathFetch env c0 Q = some (.prim m) → pathFetch env c' Q = some (.prim m) := by
  intro D
  induction D with
  | nil =>
    intro c0 _ _
    exact ⟨c0, rfl, fun Q m h => h⟩
  | cons kv rest ih =>
    intro c0 hprim hfetch
    rcases hprim kv (by simp) with ⟨n, hn⟩
    have hf0 : pathFetch env c0 (splitDots kv.1) = some (.prim n) := by
      rw [← hn]
      exact hfetch kv (by simp)
    obtain ⟨c1, hrc, hpres1⟩ :=
      rcSet_preserve_prim env (splitDots kv.1) c0 n (splitDots_ne_nil kv.1) hf0
    have hfetch1 : ∀ p ∈ rest, pathFetch env c1 (splitDots p.1) = some p.2 := by
      intro p hp
      rcases hprim p (by simp [hp]) with ⟨np, hnp⟩
      rw [hnp]
      apply hpres1
      rw [← hnp]
      exact hfetch p (by simp [hp])
    obtain ⟨c', hupd, hpres⟩ := ih c1 (fun p hp => hprim p (by simp [hp])) hfetch1
    refine ⟨c', ?_, ?_⟩
    · simp only [update_config, List.foldlM] at hupd ⊢
      rw [hn, hrc]
      exact hupd
    · intro Q m h
      exact hpres Q m (hpres1 Q m h)

/-- `make_config` builds a `NamesOk` instance (registry paths have good
segments). -/
theorem NamesOk_make_config {env : Env} {c : PVal}
    (henv : EnvOk env) (h : make_config env = some c) : NamesOk c := by
  unfold make_config at h
  have haux : ∀ (regs : List (String × String)) (c0 : PVal),
      (∀ q ∈ regs, ∀ s ∈ splitDots q.1, goodName s = true) → NamesOk c0 →
      List.foldlM
        (fun cfg p =>
          if p.1 == "@base" then some cfg
          else rcSet env cfg (splitDots p.1) (.obj (.user p.2) [])) c0 regs = some c →
      NamesOk c := by
    intro regs
    induction regs with
    | nil =>
      intro c0 _ h0 hf
      simp only [List.foldlM] at hf
      exact (Option.some.inj hf) ▸ h0
    | cons q rest ihr =>
      intro c0 hsegs h0 hf
      simp only [List.foldlM] at hf
      by_cases hb : (q.1 == "@base") = true
      · rw [if_pos hb] at hf
        exact ihr c0 (fun p hp => hsegs p (by simp [hp])) h0 hf
      · rw [if_neg hb] at hf
        cases hstep : rcSet env c0 (splitDots q.1) (.obj (.user q.2) []) with
        | none => rw [hstep] at hf; exact Option.noConfusion hf
        | some c1 =>
          rw [hstep] at hf
          have h1 : NamesOk c1 := by
            apply NamesOk_rcSet ?_ _ c0 c1 h0 (hsegs q (by simp)) hstep
            exact NamesOk.obj _ _ (by intro p hp; exact absurd hp (List.not_mem_nil p))
              (by intro p hp; exact absurd hp (List.not_mem_nil p))
          exact ihr c1 (fun p hp => hsegs p (by simp [hp])) h1 hf
  apply haux _ _ ?_ ?_ h
  · intro q hq
    exact henv.regSegsOk q ((List.perm_insertionSort _ env.registry).mem_iff.mp hq)
  · exact NamesOk.obj _ _ (by intro p hp; exact absurd hp (List.not_mem_nil p))
      (by intro p hp; exact absurd hp (List.not_mem_nil p))

/-- `make_config` builds an instance whose objects are all config-class
instances. -/
theorem ObjsReg_make_config {env : Env} {c : PVal}
    (h : make_config env = some c) : ObjsReg env c := by
  unfold make_config at h
  have haux : ∀ (regs : List (String × String)) (c0 : PVal),
      (∀ q ∈ regs, q.2 ∈ registryClasses env) → ObjsReg env c0 →
      List.foldlM
        (fun cfg p =>
          if p.1 == "@base" then some cfg
          else rcSet env cfg (splitDots p.1) (.obj (.user p.2) [])) c0 regs = some c →
      ObjsReg env c := by
    intro regs
    induction regs with
    | nil =>
      intro c0 _ h0 hf
      simp only [List.foldlM] at hf
      exact (Option.some.inj hf) ▸ h0
    | cons q rest ihr =>
      intro c0 hcls h0 hf
      simp only [List.foldlM] at hf
      by_cases hb : (q.1 == "@base") = true
      · rw [if_pos hb] at hf
        exact ihr c0 (fun p hp => hcls p (by simp [hp])) h0 hf
      · rw [if_neg hb] at hf
        cases hstep : rcSet env c0 (splitDots q.1) (.obj (.user q.2) []) with
        | none => rw [hstep] at hf; exact Option.noConfusion hf
        | some c1 =>
          rw [hstep] at hf
          have h1 : ObjsReg env c1 := by
            apply ObjsReg_rcSet ?_ _ c0 c1 h0 hstep
            refine ObjsReg.obj _ _ ?_ (by intro p hp; exact absurd hp (List.not_mem_nil p))
            simp only [isConfigInstance]
            exact List.elem_eq_true_of_mem (hcls q (by simp))
          exact ihr c1 (fun p hp => hcls p (by simp [hp])) h1 hf
  apply haux _ _ ?_ ?_ h
  · intro q hq
    exact List.mem_map.mpr ⟨q, (List.perm_insertionSort _ env.registry).mem_iff.mp hq, rfl⟩
  · cases hb : List.lookup "@base" env.registry with
    | none =>
      exact ObjsReg.obj _ _ (by simp [isConfigInstance])
        (by intro p hp; exact absurd hp (List.not_mem_nil p))
    | some cid =>
      refine ObjsReg.obj _ _ ?_ (by intro p hp; exact absurd hp (List.not_mem_nil p))
      simp only [isConfigInstance]
      exact List.elem_eq_true_of_mem
        (List.mem_map.mpr ⟨("@base", cid), lookup_mem hb, rfl⟩)

/-! ### Claim theorem C5 -/

/-- **C5.** For a fixed section registry, `config_from_dict` applied to the
flat mapping `config_to_dict(make_config())` reproduces an equivalent
instance: every leaf value of the flattening is fetched, at its dotted path,
with the same value from the reconstructed instance. -/
theorem config_roundtrip (env : Env) (c : PVal) (d : List (String × PVal)) (c' : PVal)
    (henv : EnvOk env)
    (h1 : make_config env = some c)
    (h2 : config_to_dict env c = some d)
    (h3 : config_from_dict env d = some c') :
    ∀ kv ∈ d, rGetattr env c' (splitDots kv.1) = some kv.2 := by
  have hNames : NamesOk c := NamesOk_make_config henv h1
  have hObjs : ObjsReg env c := ObjsReg_make_config h1
  have hentry : ∀ kv ∈ d,
      (∃ n, kv.2 = PVal.prim n) ∧ pathFetch env c (splitDots kv.1) = some kv.2 := by
    intro kv hkv
    rcases mem_config_to_dict h2 kv hkv with
      ⟨sec, hsecreg, subcfg, i, hsub, hi, _, hget, hconf, hkey⟩
    by_cases hbase : (sec.1 == "@base") = true
    · rw [if_pos hbase] at hsub
      have hsc : subcfg = c := (Option.some.inj hsub).symm
      subst hsc
      have higood : goodName i = true := goodName_of_dirNames henv hNames hi
      rw [if_pos hbase] at hkey
      simp only [List.nil_append] at hkey
      have hks : splitDots kv.1 = [i] := by
        rw [hkey, show joinDots [i] = i from rfl]
        exact splitDots_of_dotFree (goodName_dotFree higood)
      constructor
      · exact ObjsReg_nonconfig_prim (ObjsReg_getattrE hObjs hget) hconf
      · rw [hks, pathFetch_single]
        exact hget
    · rw [if_neg hbase] at hsub
      rw [rGetattr_eq_pathFetch env _ _ (splitDots_ne_nil sec.1)] at hsub
      have hsubNames : NamesOk subcfg := NamesOk_pathFetch hNames hsub
      have hsubObjs : ObjsReg env subcfg := ObjsReg_pathFetch hObjs hsub
      have higood : goodName i = true := goodName_of_dirNames henv hsubNames hi
      rw [if_neg hbase] at hkey
      have hks : splitDots kv.1 = splitDots sec.1 ++ [i] := by
        rw [hkey]
        apply splitDots_joinDots (by simp)
        intro s hs
        rcases List.mem_append.mp hs with hs | hs
        · exact goodName_dotFree (henv.regSegsOk sec hsecreg s hs)
        · simp only [List.mem_singleton] at hs
          exact hs ▸ goodName_dotFree higood
      constructor
      · exact ObjsReg_nonconfig_prim (ObjsReg_getattrE hsubObjs hget) hconf
      · rw [hks, pathFetch_append, hsub, Option.some_bind, pathFetch_single]
        exact hget
  obtain ⟨c2, hupd2, hpres⟩ := update_config_roundtrip env d c
    (fun kv hkv => (hentry kv hkv).1) (fun kv hkv => (hentry kv hkv).2)
  unfold config_from_dict at h3
  rw [h1] at h3
  have h3a : (update_config env c d).bind
      (fun config2 => (check_config env config2).bind (fun _ => some config2)) = some c' := h3
  rw [hupd2] at h3a
  have h3b : (check_config env c2).bind (fun _ => some c2) = some c' := h3a
  have hc2 : c2 = c' := by
    cases hchk : check_config env c2 with
    | none => rw [hchk] at h3b; exact Option.noConfusion h3b
    | some u =>
      rw [hchk] at h3b
      exact Option.some.inj h3b
  intro kv hkv
  rcases (hentry kv hkv).1 with ⟨n, hn⟩
  rw [rGetattr_eq_pathFetch env _ _ (splitDots_ne_nil kv.1), ← hc2, hn]
  apply hpres
  rw [← hn]
  exact (hentry kv hkv).2

/-- Witness for C5: one section `a` (class `A` with default `x = 3`):
flattening yields `{"a.x": 3}` and the reconstructed instance fetches
`a.x = 3`. -/
theorem config_roundtrip_witness :
    rGetattr ⟨[("A", [("x", 3)])], [("a", "A")]⟩
      (.obj .base [("a", .obj (.user "A") [("x", .prim 3)])]) (splitDots "a.x")
      = some (.prim 3) :=
  config_roundtrip ⟨[("A", [("x", 3)])], [("a", "A")]⟩
    (.obj .base [("a", .obj (.user "A") [])])
    [("a.x", PVal.prim 3)]
    (.obj .base [("a", .obj (.user "A") [("x", .prim 3)])])
    ⟨by decide, by decide, by decide⟩ (by rfl) (by rfl) (by rfl)
    ("a.x", PVal.prim 3) (List.mem_cons_self _ _)

/-! ## The full stub emitter (`output_stub`) and its determinism (C6)

A run of `output_stub` folds over `_name_to_config.items()` in dict
(insertion = registration) order.  Per section it resolves the target node
with `_recursive_dd_get` (creating intermediate defaultdicts; indexing into
a `ConfigAttr` namedtuple with a string raises `TypeError`, modelled as
`none`) and then applies the per-class field assignments to it in order.
Finally the text is assembled from the disclaimer, the two sorted
deduplicated import sets, the rendered tree, and the fixed trailer. -/

/-- A sequence of `attr_dict[name] = ConfigAttr(...)` assignments applied to
a tree node's entry dict. -/
def applyOpsN (es : List (String × Node)) (ops : List (String × ConfigAttr)) :
    List (String × Node) :=
  ops.foldl (fun es p => dinsert es p.1 (.leaf p.2.type p.2.docstring)) es

/-- `_recursive_dd_get` to the section's path (creating intermediate dict
nodes on the way, raising on a leaf in the middle), followed by the field
assignments at the target.  Assignments into a leaf target (a `ConfigAttr`
namedtuple) raise `TypeError` unless there are none. -/
def ensureAndInsert : Node → List String → List (String × ConfigAttr) → Option Node
  | .leaf t dc, [], ops => if ops.isEmpty then some (.leaf t dc) else none
  | .dict es, [], ops => some (.dict (applyOpsN es ops))
  | .leaf _ _, _ :: _, _ => none
  | .dict es, k :: rest, ops =>
    (ensureAndInsert ((List.lookup k es).getD (.dict [])) rest ops).map
      (fun c2 => .dict (dinsert es k c2))

/-- All field assignments a class performs, in program order: the inferred
pass then the declared pass. -/
def classOps (c : SectionClass) : List (String × ConfigAttr) :=
  inferredOps c ++ declaredOps c

/-- The tree position of a section: the root for `@base`, else the split
dotted path. -/
def sectionPath (cname : String) : List String :=
  if cname == "@base" then [] else splitDots cname

/-- The accumulating state of `output_stub`'s main loop. -/
structure StubState : Type where
  tree : Node
  imports : List String
  typingImports : List String

/-- Processing one registered section inside `output_stub`. -/
def processSection (st : StubState) (p : String × SectionClass) : Option StubState :=
  (ensureAndInsert st.tree (sectionPath p.1) (classOps p.2)).map
    (fun t2 =>
      { tree := t2
        imports := st.imports ++ inferredImports p.2 ++ declaredImports p.2
        typingImports := st.typingImports ++ declaredTypingImports p.2 })

/-- The `DISCLAIMER` template applied to the base path. -/
def DISCLAIMER (basePath : String) : String :=
  "# This file was generated automatically\n# Do not edit by hand, your changes will be lost\n# Regenerate by running `python -m foliconf " ++ basePath ++ "`\n"

/-- The fixed `STUB_BASE` trailer. -/
def STUB_BASE : String :=
  "def config_class(name): ...\ndef config_from_dict(config_dict: dict[str, Any]) -> Config: ...\ndef make_config() -> Config: ...\ndef update_config(config: Config, config_dict: dict[str, Any]) -> Config: ...\ndef config_to_dict(config: Config) -> dict[str, Any]: ...\n"

/-- `sorted(set(l))`. -/
def sortedSet (l : List String) : List String :=
  List.insertionSort (keyRel id) l.dedup

/-- `output_stub` (lines 140–198): build the tree and import lists over the
registered sections in registration order, then assemble the stub text. -/
def output_stub (basePath : String) (secs : List (String × SectionClass)) : Option String :=
  (secs.foldlM processSection ⟨.dict [], [], []⟩).map
    (fun st =>
      DISCLAIMER basePath
      ++ "from typing import " ++ joinSep ", " (sortedSet st.typingImports) ++ "\n"
      ++ joinSep "\n" (sortedSet st.imports) ++ "\n\n"
      ++ fModel "Config" st.tree 0
      ++ STUB_BASE)

/-! ### C6 counterexample -/

/-- C6 as stated is false: two runs over the identical set of sections
{`a` (with attribute `x`), `a._x` (empty)} produce different bytes in the
two registration orders — the leaf `x` and the namespace `_x` share the sort
key `"_x"`, so the stable sort keeps their insertion order, which differs. -/
theorem stub_determinism_counterexample :
    output_stub "config.py"
        [("a", ⟨[("x", ⟨"int", "builtins"⟩)], [], []⟩), ("a._x", ⟨[], [], []⟩)]
      ≠ output_stub "config.py"
        [("a._x", ⟨[], [], []⟩), ("a", ⟨[("x", ⟨"int", "builtins"⟩)], [], []⟩)] := by
  set_option maxRecDepth 10000 in decide

/-! ## Canonical forms for determinism (C6 amended)

Two runs over the same set of sections in different orders build trees whose
blocks hold the same entries in different positions.  `canonK` sorts every
block by its plain key; under per-block key uniqueness it is a canonical
form, and the invariant `canonK tree₁ = canonK tree₂` is maintained through
the fold. -/

/-- `List.insertionSort` by a string key. -/
def sortByKey {α : Type} (key : α → String) (l : List α) : List α :=
  List.insertionSort (keyRel key) l

theorem sortByKey_perm {α : Type} (key : α → String) (l : List α) :
    List.Perm (sortByKey key l) l :=
  List.perm_insertionSort _ l

theorem sortByKey_sorted {α : Type} (key : α → String) (l : List α) :
    List.Sorted (keyRel key) (sortByKey key l) :=
  List.sorted_insertionSort _ l

/-- Two lists sorted by a string key with pairwise-distinct key values are
equal as soon as they are permutations of each other. -/
theorem sorted_key_nodup_eq {α : Type} (key : α → String) :
    ∀ {l1 l2 : List α}, List.Perm l1 l2 → List.Sorted (keyRel key) l1 →
      List.Sorted (keyRel key) l2 → (l1.map key).Nodup → l1 = l2 := by
  intro l1
  induction l1 with
  | nil =>
    intro l2 hp _ _ _
    exact hp.nil_eq
  | cons a t1 ih =>
    intro l2 hp h1 h2 hnd
    cases l2 with
    | nil => exact absurd hp.symm.nil_eq (by simp)
    | cons b t2 =>
      have hs1 := List.sorted_cons.mp h1
      have hs2 := List.sorted_cons.mp h2
      have hba : b ∈ a :: t1 := hp.mem_iff.mpr (List.mem_cons_self _ _)
      have hab : a ∈ b :: t2 := hp.mem_iff.mp (List.mem_cons_self _ _)
      have hkab : keyRel key a b := by
        rcases List.mem_cons.mp hba with h | h
        · rw [h]; exact pyLeS_refl _
        · exact hs1.1 b h
      have hkba : keyRel key b a := by
        rcases List.mem_cons.mp hab with h | h
        · rw [h]; exact pyLeS_refl _
        · exact hs2.1 a h
      have hk : key a = key b := pyLeS_antisymm hkab hkba
      have hb : b = a := by
        rcases List.mem_cons.mp hba with h | h
        · exact h
        · exfalso
          simp only [List.map_cons, List.nodup_cons] at hnd
          exact hnd.1 (hk ▸ List.mem_map.mpr ⟨b, h, rfl⟩)
      subst hb
      have ht : t1 = t2 := by
        apply ih hp.cons_inv hs1.2 hs2.2
        simp only [List.map_cons, List.nodup_cons] at hnd
        exact hnd.2
      rw [ht]

/-- Writing the same key twice keeps only the second write. -/
theorem dinsert_dinsert_same {β : Type} (es : List (String × β)) (k : String) (v v' : β) :
    dinsert (dinsert es k v) k v' = dinsert es k v' := by
  induction es with
  | nil => simp [dinsert]
  | cons p rest ih =>
    obtain ⟨k0, v0⟩ := p
    by_cases h : k0 = k
    · subst h
      simp [dinsert]
    · simp [dinsert, h, ih]

/-- Writes at two distinct keys commute up to a permutation of the entry
order (they differ exactly when both keys are fresh, where the appended
order flips). -/
theorem dinsert_comm_perm {β : Type} (es : List (String × β)) {k1 k2 : String} (v1 v2 : β)
    (h : k1 ≠ k2) :
    List.Perm (dinsert (dinsert es k1 v1) k2 v2) (dinsert (dinsert es k2 v2) k1 v1) := by
  induction es with
  | nil =>
    have h' : k2 ≠ k1 := fun hh => h hh.symm
    simp [dinsert, h, h']
    exact List.Perm.swap _ _ _
  | cons p rest ih =>
    obtain ⟨k0, v0⟩ := p
    by_cases h1 : k0 = k1
    · subst h1
      have h2 : ¬ (k0 = k2) := fun hh => h hh
      simp [dinsert, h2]
    · by_cases h2 : k0 = k2
      · subst h2
        simp [dinsert, h1]
      · simp only [dinsert, beq_iff_eq, h1, h2, if_false]
        exact List.Perm.cons _ ih

/-- A key absent from an association list looks up to `none`. -/
theorem lookup_none_of_not_mem {β : Type} {l : List (String × β)} {k : String}
    (h : k ∉ l.map Prod.fst) : List.lookup k l = none := by
  induction l with
  | nil => rfl
  | cons p rest ih =>
    obtain ⟨k0, v0⟩ := p
    simp only [List.map_cons, List.mem_cons] at h
    push_neg at h
    have hk : (k == k0) = false := by simp [h.1]
    simp only [List.lookup, hk]
    exact ih h.2

/-- `dinsert` into permuted association lists with distinct keys yields
permuted results. -/
theorem dinsert_perm {β : Type} {es1 es2 : List (String × β)} (h : List.Perm es1 es2)
    (k : String) (v : β) :
    (es1.map Prod.fst).Nodup → List.Perm (dinsert es1 k v) (dinsert es2 k v) := by
  induction h with
  | nil => intro _; exact List.Perm.refl _
  | cons p h' ih =>
    intro hnd
    obtain ⟨k0, v0⟩ := p
    simp only [List.map_cons, List.nodup_cons] at hnd
    by_cases hk : k0 = k
    · subst hk
      simp [dinsert]
      exact h'
    · simp only [dinsert, beq_iff_eq, hk, if_false]
      exact List.Perm.cons _ (ih hnd.2)
  | swap x y l =>
    intro hnd
    obtain ⟨kx, vx⟩ := x
    obtain ⟨ky, vy⟩ := y
    simp only [List.map_cons, List.nodup_cons, List.mem_cons] at hnd
    push_neg at hnd
    have hxy : ky ≠ kx := hnd.1.1
    by_cases hy : ky = k
    · subst hy
      have hx : ¬ (kx = ky) := fun hh => hxy hh.symm
      simp [dinsert, hx]
      exact List.Perm.swap _ _ _
    · by_cases hx : kx = k
      · subst hx
        simp [dinsert, hy]
        exact List.Perm.swap _ _ _
      · simp only [dinsert, beq_iff_eq, hx, hy, if_false]
        exact List.Perm.swap _ _ _
  | trans h1 h2 ih1 ih2 =>
    intro hnd
    exact (ih1 hnd).trans (ih2 ((h1.map Prod.fst).nodup_iff.mp hnd))

/-- Lookups agree across permutations of an association list with distinct
keys. -/
theorem lookup_perm_nodup {β : Type} {es1 es2 : List (String × β)} (h : List.Perm es1 es2) :
    (es1.map Prod.fst).Nodup → ∀ k, List.lookup k es1 = List.lookup k es2 := by
  induction h with
  | nil => intro _ k; rfl
  | cons p h' ih =>
    intro hnd k
    obtain ⟨k0, v0⟩ := p
    simp only [List.map_cons, List.nodup_cons] at hnd
    by_cases hk : k = k0
    · simp [List.lookup, hk]
    · have hk' : (k == k0) = false := by simp [hk]
      simp [List.lookup, hk']
      exact ih hnd.2 k
  | swap x y l =>
    intro hnd k
    obtain ⟨kx, vx⟩ := x
    obtain ⟨ky, vy⟩ := y
    simp only [List.map_cons, List.nodup_cons, List.mem_cons] at hnd
    push_neg at hnd
    have hxy : ky ≠ kx := hnd.1.1
    by_cases hy : k = ky
    · subst hy
      have h2 : (k == kx) = false := by simp [hxy]
      simp [List.lookup, h2]
    · by_cases hx : k = kx
      · subst hx
        have h2 : (k == ky) = false := by simp [hy]
        simp [List.lookup, h2]
      · have h1 : (k == ky) = false := by simp [hy]
        have h2 : (k == kx) = false := by simp [hx]
        simp [List.lookup, h1, h2]
  | trans h1 h2 ih1 ih2 =>
    intro hnd k
    exact (ih1 hnd k).trans (ih2 ((h1.map Prod.fst).nodup_iff.mp hnd) k)

mutual
/-- The canonical form of a schema tree: every block's entries sorted by
their plain key.  Two trees built from the same sections in different
orders agree after `canonK` (their blocks hold the same key/value pairs in
different positions). -/
def canonK : Node → Node
  | .leaf t d => .leaf t d
  | .dict es => .dict (sortByKey (fun p => p.1) (canonKEs es))

def canonKEs : List (String × Node) → List (String × Node)
  | [] => []
  | (k, v) :: rest => (k, canonK v) :: canonKEs rest
end

/-- One block's entries in canonical form. -/
def cEs (es : List (String × Node)) : List (String × Node) :=
  sortByKey (fun p => p.1) (canonKEs es)

theorem canonK_dict (es : List (String × Node)) : canonK (.dict es) = .dict (cEs es) :=
  rfl

theorem canonKEs_eq_map (es : List (String × Node)) :
    canonKEs es = es.map (fun p => (p.1, canonK p.2)) := by
  induction es with
  | nil => rfl
  | cons p rest ih =>
    obtain ⟨k, v⟩ := p
    simp [canonKEs, ih]

theorem keys_canonKEs (es : List (String × Node)) :
    (canonKEs es).map Prod.fst = es.map Prod.fst := by
  rw [canonKEs_eq_map, List.map_map]
  rfl

theorem canonKEs_perm {es1 es2 : List (String × Node)} (h : List.Perm es1 es2) :
    List.Perm (canonKEs es1) (canonKEs es2) := by
  rw [canonKEs_eq_map, canonKEs_eq_map]
  exact h.map _

/-- Permuted blocks with distinct keys have the same canonical form. -/
theorem cEs_of_perm {es1 es2 : List (String × Node)} (h : List.Perm es1 es2)
    (hnd : (es1.map Prod.fst).Nodup) : cEs es1 = cEs es2 := by
  apply sorted_key_nodup_eq (fun p => p.1)
  · exact ((sortByKey_perm _ _).trans (canonKEs_perm h)).trans (sortByKey_perm _ _).symm
  · exact sortByKey_sorted _ _
  · exact sortByKey_sorted _ _
  · have hp : List.Perm ((sortByKey (fun p => p.1) (canonKEs es1)).map Prod.fst)
        (es1.map Prod.fst) := by
      have := (sortByKey_perm (fun p => p.1) (canonKEs es1)).map Prod.fst
      rwa [keys_canonKEs] at this
    exact hp.nodup_iff.mpr hnd

/-- Equal canonical forms mean the raw canonized entries are permutations. -/
theorem canonKEs_perm_of_cEs {es1 es2 : List (String × Node)} (h : cEs es1 = cEs es2) :
    List.Perm (canonKEs es1) (canonKEs es2) := by
  unfold cEs at h
  have h1 := (sortByKey_perm (fun p : String × Node => p.1) (canonKEs es1)).symm
  have h2 := sortByKey_perm (fun p : String × Node => p.1) (canonKEs es2)
  rw [h] at h1
  exact h1.trans h2

theorem keys_perm_of_cEs {es1 es2 : List (String × Node)} (h : cEs es1 = cEs es2) :
    List.Perm (es1.map Prod.fst) (es2.map Prod.fst) := by
  have := (canonKEs_perm_of_cEs h).map Prod.fst
  rwa [keys_canonKEs, keys_canonKEs] at this

theorem lookup_canonKEs (k : String) (es : List (String × Node)) :
    List.lookup k (canonKEs es) = Option.map canonK (List.lookup k es) := by
  induction es with
  | nil => rfl
  | cons p rest ih =>
    obtain ⟨k0, v0⟩ := p
    by_cases hk : k = k0
    · simp [canonKEs, List.lookup, hk]
    · have hk' : (k == k0) = false := by simp [hk]
      simp [canonKEs, List.lookup, hk']
      exact ih

/-- Blocks with equal canonical forms look up canonically-equal children. -/
theorem cEs_lookup_congr {es1 es2 : List (String × Node)} (h : cEs es1 = cEs es2)
    (hnd : (es1.map Prod.fst).Nodup) (k : String) :
    Option.map canonK (List.lookup k es1) = Option.map canonK (List.lookup k es2) := by
  rw [← lookup_canonKEs, ← lookup_canonKEs]
  exact lookup_perm_nodup (canonKEs_perm_of_cEs h) (by rwa [keys_canonKEs]) k

theorem canonKEs_dinsert (es : List (String × Node)) (k : String) (v : Node) :
    canonKEs (dinsert es k v) = dinsert (canonKEs es) k (canonK v) := by
  induction es with
  | nil => rfl
  | cons p rest ih =>
    obtain ⟨k0, v0⟩ := p
    by_cases hk : k0 = k
    · subst hk
      simp [dinsert, canonKEs]
    · simp [dinsert, canonKEs, hk, ih]

/-- `dinsert` of canonically-equal values into blocks with equal canonical
forms gives equal canonical forms. -/
theorem cEs_dinsert_congr {es1 es2 : List (String × Node)} {v1 v2 : Node}
    (h : cEs es1 = cEs es2) (hv : canonK v1 = canonK v2)
    (hnd1 : (es1.map Prod.fst).Nodup) (k : String) :
    cEs (dinsert es1 k v1) = cEs (dinsert es2 k v2) := by
  apply sorted_key_nodup_eq (fun p => p.1)
  · apply (sortByKey_perm _ _).trans
    apply List.Perm.trans _ (sortByKey_perm _ _).symm
    rw [canonKEs_dinsert, canonKEs_dinsert, hv]
    exact dinsert_perm (canonKEs_perm_of_cEs h) k (canonK v2) (by rwa [keys_canonKEs])
  · exact sortByKey_sorted _ _
  · exact sortByKey_sorted _ _
  · have hp : List.Perm ((sortByKey (fun p => p.1) (canonKEs (dinsert es1 k v1))).map Prod.fst)
        ((dinsert es1 k v1).map Prod.fst) := by
      have := (sortByKey_perm (fun p => p.1) (canonKEs (dinsert es1 k v1))).map Prod.fst
      rwa [keys_canonKEs] at this
    exact hp.nodup_iff.mpr (nodup_keys_dinsert _ _ _ hnd1)

theorem applyOpsN_nil (es : List (String × Node)) : applyOpsN es [] = es := rfl

theorem applyOpsN_cons (es : List (String × Node)) (o : String × ConfigAttr)
    (rest : List (String × ConfigAttr)) :
    applyOpsN es (o :: rest) =
      applyOpsN (dinsert es o.1 (.leaf o.2.type o.2.docstring)) rest := rfl

theorem nodup_keys_applyOpsN (ops : List (String × ConfigAttr)) :
    ∀ es : List (String × Node), (es.map Prod.fst).Nodup →
      ((applyOpsN es ops).map Prod.fst).Nodup := by
  induction ops with
  | nil => intro es h; exact h
  | cons o rest ih =>
    intro es h
    rw [applyOpsN_cons]
    exact ih _ (nodup_keys_dinsert _ _ _ h)

/-- Field assignments do not disturb the entry at a non-assigned key. -/
theorem lookup_applyOpsN_ne {ops : List (String × ConfigAttr)} {k : String}
    (hk : k ∉ ops.map Prod.fst) :
    ∀ es, List.lookup k (applyOpsN es ops) = List.lookup k es := by
  induction ops with
  | nil => intro es; rfl
  | cons o rest ih =>
    intro es
    simp only [List.map_cons, List.mem_cons] at hk
    push_neg at hk
    rw [applyOpsN_cons, ih hk.2, lookup_dinsert_ne _ _ hk.1]

/-- Applying the same assignment sequence to blocks with equal canonical
forms gives equal canonical forms. -/
theorem applyOpsN_cEs_congr (ops : List (String × ConfigAttr)) :
    ∀ {es1 es2 : List (String × Node)}, cEs es1 = cEs es2 →
      (es1.map Prod.fst).Nodup →
      cEs (applyOpsN es1 ops) = cEs (applyOpsN es2 ops) := by
  induction ops with
  | nil => intro es1 es2 h _; exact h
  | cons o rest ih =>
    intro es1 es2 h hnd
    rw [applyOpsN_cons, applyOpsN_cons]
    exact ih (cEs_dinsert_congr h rfl hnd o.1) (nodup_keys_dinsert _ _ _ hnd)

/-- A write at a key not named by the assignment sequence commutes with the
sequence, up to canonical form. -/
theorem applyOpsN_dinsert_comm {ops : List (String × ConfigAttr)} {k : String}
    (hk : k ∉ ops.map Prod.fst) (v : Node) :
    ∀ es, (es.map Prod.fst).Nodup →
      cEs (applyOpsN (dinsert es k v) ops) = cEs (dinsert (applyOpsN es ops) k v) := by
  induction ops with
  | nil => intro es _; rfl
  | cons o rest ih =>
    intro es hnd
    simp only [List.map_cons, List.mem_cons] at hk
    push_neg at hk
    rw [applyOpsN_cons, applyOpsN_cons]
    have hswap : List.Perm (dinsert (dinsert es k v) o.1 (.leaf o.2.type o.2.docstring))
        (dinsert (dinsert es o.1 (.leaf o.2.type o.2.docstring)) k v) :=
      dinsert_comm_perm es _ _ hk.1
    have h1 : cEs (applyOpsN (dinsert (dinsert es k v) o.1 (.leaf o.2.type o.2.docstring)) rest)
        = cEs (applyOpsN (dinsert (dinsert es o.1 (.leaf o.2.type o.2.docstring)) k v) rest) := by
      apply applyOpsN_cEs_congr
      · exact cEs_of_perm hswap (nodup_keys_dinsert _ _ _ (nodup_keys_dinsert _ _ _ hnd))
      · exact nodup_keys_dinsert _ _ _ (nodup_keys_dinsert _ _ _ hnd)
    rw [h1]
    exact ih hk.2 _ (nodup_keys_dinsert _ _ _ hnd)

/-- Pairwise-distinct strings, as a computable predicate. -/
def distinctB : List String → Bool
  | [] => true
  | x :: r => (!(r.contains x)) && distinctB r

theorem distinctB_iff (l : List String) : distinctB l = true ↔ l.Nodup := by
  induction l with
  | nil => simp [distinctB]
  | cons x r ih =>
    simp only [distinctB, Bool.and_eq_true, Bool.not_eq_true', List.nodup_cons, ih]
    constructor
    · intro h
      refine ⟨fun hm => ?_, h.2⟩
      have := List.elem_eq_true_of_mem hm
      rw [show List.contains r x = List.elem x r from rfl, this] at h
      exact Bool.noConfusion h.1
    · intro h
      refine ⟨?_, h.2⟩
      cases hc : List.contains r x with
      | false => rfl
      | true =>
        exfalso
        have : x ∈ r := by
          have := List.mem_of_elem_eq_true (by rwa [show List.contains r x = List.elem x r from rfl] at hc)
          exact this
        exact h.1 this

mutual
/-- Well-formedness of a tree: every block's keys are pairwise distinct.
The tree built by `output_stub` always satisfies this (a CPython dict never
holds a key twice). -/
def wfN : Node → Bool
  | .leaf _ _ => true
  | .dict es => distinctB (es.map Prod.fst) && wfEs es

def wfEs : List (String × Node) → Bool
  | [] => true
  | (_, v) :: rest => wfN v && wfEs rest
end

theorem wfN_dict_unpack {es : List (String × Node)} (h : wfN (.dict es) = true) :
    (es.map Prod.fst).Nodup ∧ wfEs es = true := by
  have h' := h
  rw [show wfN (.dict es) = (distinctB (es.map Prod.fst) && wfEs es) from rfl] at h'
  rcases Bool.and_eq_true _ _ ▸ h' with ⟨h1, h2⟩
  exact ⟨(distinctB_iff _).mp h1, h2⟩

theorem wfN_dict_pack {es : List (String × Node)} (h1 : (es.map Prod.fst).Nodup)
    (h2 : wfEs es = true) : wfN (.dict es) = true := by
  rw [show wfN (.dict es) = (distinctB (es.map Prod.fst) && wfEs es) from rfl]
  rw [(distinctB_iff _).mpr h1, h2]
  rfl

theorem wfEs_mem : ∀ {es : List (String × Node)} {k : String} {v : Node},
    wfEs es = true → (k, v) ∈ es → wfN v = true := by
  intro es
  induction es with
  | nil => intro k v _ hm; simp at hm
  | cons p rest ih =>
    intro k v h hm
    obtain ⟨k0, v0⟩ := p
    rw [show wfEs ((k0, v0) :: rest) = (wfN v0 && wfEs rest) from rfl] at h
    rcases Bool.and_eq_true _ _ ▸ h with ⟨h1, h2⟩
    rcases List.mem_cons.mp hm with hm | hm
    · injection hm with hk hv
      rw [← hv] at h1
      exact h1
    · exact ih h2 hm

theorem wfEs_lookup {es : List (String × Node)} {k : String} {v : Node}
    (h : wfEs es = true) (hl : List.lookup k es = some v) : wfN v = true :=
  wfEs_mem h (lookup_mem hl)

theorem wfEs_dinsert {es : List (String × Node)} {v : Node} (k : String)
    (hv : wfN v = true) (hes : wfEs es = true) : wfEs (dinsert es k v) = true := by
  induction es with
  | nil =>
    rw [show dinsert ([] : List (String × Node)) k v = [(k, v)] from rfl]
    rw [show wfEs [(k, v)] = (wfN v && wfEs []) from rfl, hv]
    rfl
  | cons p rest ih =>
    obtain ⟨k0, v0⟩ := p
    rw [show wfEs ((k0, v0) :: rest) = (wfN v0 && wfEs rest) from rfl] at hes
    rcases Bool.and_eq_true _ _ ▸ hes with ⟨h1, h2⟩
    by_cases hk : k0 = k
    · subst hk
      rw [show dinsert ((k0, v0) :: rest) k0 v = (k0, v) :: rest by simp [dinsert]]
      rw [show wfEs ((k0, v) :: rest) = (wfN v && wfEs rest) from rfl, hv, h2]
      rfl
    · rw [show dinsert ((k0, v0) :: rest) k v = (k0, v0) :: dinsert rest k v by
        simp [dinsert, hk]]
      rw [show wfEs ((k0, v0) :: dinsert rest k v) = (wfN v0 && wfEs (dinsert rest k v)) from rfl,
        h1, ih h2]
      rfl

theorem wfEs_applyOpsN (ops : List (String × ConfigAttr)) :
    ∀ es, wfEs es = true → wfEs (applyOpsN es ops) = true := by
  induction ops with
  | nil => intro es h; exact h
  | cons o rest ih =>
    intro es h
    rw [applyOpsN_cons]
    exact ih _ (wfEs_dinsert _ rfl h)

/-- `_recursive_dd_get` plus the field assignments keep every block's keys
distinct. -/
theorem wfN_ensureAndInsert : ∀ (P : List String) (t : Node) (ops : List (String × ConfigAttr))
    (t' : Node), ensureAndInsert t P ops = some t' → wfN t = true → wfN t' = true := by
  intro P
  induction P with
  | nil =>
    intro t ops t' heq hw
    cases t with
    | leaf ty dc =>
      rw [show ensureAndInsert (.leaf ty dc) [] ops
          = (if ops.isEmpty then some (.leaf ty dc) else none) from rfl] at heq
      by_cases he : ops.isEmpty
      · rw [if_pos he] at heq
        injection heq with h
        rw [← h]
        rfl
      · rw [if_neg he] at heq
        exact Option.noConfusion heq
    | dict es =>
      rw [show ensureAndInsert (.dict es) [] ops = some (.dict (applyOpsN es ops)) from rfl] at heq
      injection heq with h
      rw [← h]
      rcases wfN_dict_unpack hw with ⟨h1, h2⟩
      exact wfN_dict_pack (nodup_keys_applyOpsN ops es h1) (wfEs_applyOpsN ops es h2)
  | cons k rest ih =>
    intro t ops t' heq hw
    cases t with
    | leaf ty dc => exact Option.noConfusion heq
    | dict es =>
      rw [show ensureAndInsert (.dict es) (k :: rest) ops
          = (ensureAndInsert ((List.lookup k es).getD (.dict [])) rest ops).map
              (fun c2 => .dict (dinsert es k c2)) from rfl] at heq
      cases hsub : ensureAndInsert ((List.lookup k es).getD (.dict [])) rest ops with
      | none => rw [hsub] at heq; exact Option.noConfusion heq
      | some c2 =>
        rw [hsub] at heq
        injection heq with h
        rw [← h]
        rcases wfN_dict_unpack hw with ⟨h1, h2⟩
        have hchild : wfN ((List.lookup k es).getD (.dict [])) = true := by
          cases hl : List.lookup k es with
          | none => rfl
          | some v => exact wfEs_lookup h2 hl
        have hc2 : wfN c2 = true := ih _ ops c2 hsub hchild
        exact wfN_dict_pack (nodup_keys_dinsert _ _ _ h1) (wfEs_dinsert _ hc2 h2)

/-- Processing a section on two trees with equal canonical forms succeeds
or fails together, producing canonically-equal results. -/
theorem ensureAndInsert_congr : ∀ (P : List String) (t1 t2 : Node)
    (ops : List (String × ConfigAttr)), wfN t1 = true → wfN t2 = true →
    canonK t1 = canonK t2 →
    Option.map canonK (ensureAndInsert t1 P ops)
      = Option.map canonK (ensureAndInsert t2 P ops) := by
  intro P
  induction P with
  | nil =>
    intro t1 t2 ops hw1 hw2 hc
    cases t1 with
    | leaf ty dc =>
      cases t2 with
      | leaf ty2 dc2 =>
        have : (Node.leaf ty dc) = (Node.leaf ty2 dc2) := by
          rw [show canonK (.leaf ty dc) = .leaf ty dc from rfl,
            show canonK (.leaf ty2 dc2) = .leaf ty2 dc2 from rfl] at hc
          exact hc
        rw [this]
      | dict es2 =>
        rw [show canonK (.leaf ty dc) = .leaf ty dc from rfl, canonK_dict] at hc
        exact Node.noConfusion hc
    | dict es1 =>
      cases t2 with
      | leaf ty2 dc2 =>
        rw [show canonK (.leaf ty2 dc2) = .leaf ty2 dc2 from rfl, canonK_dict] at hc
        exact Node.noConfusion hc
      | dict es2 =>
        rw [canonK_dict, canonK_dict] at hc
        have hce : cEs es1 = cEs es2 := by injection hc
        rw [show ensureAndInsert (.dict es1) [] ops = some (.dict (applyOpsN es1 ops)) from rfl,
          show ensureAndInsert (.dict es2) [] ops = some (.dict (applyOpsN es2 ops)) from rfl]
        simp only [Option.map_some']
        rw [canonK_dict, canonK_dict,
          applyOpsN_cEs_congr ops hce (wfN_dict_unpack hw1).1]
  | cons k rest ih =>
    intro t1 t2 ops hw1 hw2 hc
    cases t1 with
    | leaf ty dc =>
      cases t2 with
      | leaf ty2 dc2 => rfl
      | dict es2 =>
        rw [show canonK (.leaf ty dc) = .leaf ty dc from rfl, canonK_dict] at hc
        exact Node.noConfusion hc
    | dict es1 =>
      cases t2 with
      | leaf ty2 dc2 =>
        rw [show canonK (.leaf ty2 dc2) = .leaf ty2 dc2 from rfl, canonK_dict] at hc
        exact Node.noConfusion hc
      | dict es2 =>
        rw [canonK_dict, canonK_dict] at hc
        have hce : cEs es1 = cEs es2 := by injection hc
        have hnd1 : (es1.map Prod.fst).Nodup := (wfN_dict_unpack hw1).1
        have hnd2 : (es2.map Prod.fst).Nodup := (wfN_dict_unpack hw2).1
        have hlk := cEs_lookup_congr hce hnd1 k
        have hcc : canonK ((List.lookup k es1).getD (.dict []))
            = canonK ((List.lookup k es2).getD (.dict [])) := by
          cases hl1 : List.lookup k es1 with
          | none =>
            cases hl2 : List.lookup k es2 with
            | none => rfl
            | some v2 =>
              rw [hl1, hl2] at hlk
              exact Option.noConfusion hlk
          | some v1 =>
            cases hl2 : List.lookup k es2 with
            | none =>
              rw [hl1, hl2] at hlk
              exact Option.noConfusion hlk
            | some v2 =>
              rw [hl1, hl2] at hlk
              simpa using hlk
        have hwc1 : wfN ((List.lookup k es1).getD (.dict [])) = true := by
          cases hl : List.lookup k es1 with
          | none => rfl
          | some v => exact wfEs_lookup (wfN_dict_unpack hw1).2 hl
        have hwc2 : wfN ((List.lookup k es2).getD (.dict [])) = true := by
          cases hl : List.lookup k es2 with
          | none => rfl
          | some v => exact wfEs_lookup (wfN_dict_unpack hw2).2 hl
        have hih := ih ((List.lookup k es1).getD (.dict []))
          ((List.lookup k es2).getD (.dict [])) ops hwc1 hwc2 hcc
        rw [show ensureAndInsert (.dict es1) (k :: rest) ops
            = (ensureAndInsert ((List.lookup k es1).getD (.dict [])) rest ops).map
                (fun c2 => .dict (dinsert es1 k c2)) from rfl,
          show ensureAndInsert (.dict es2) (k :: rest) ops
            = (ensureAndInsert ((List.lookup k es2).getD (.dict [])) rest ops).map
                (fun c2 => .dict (dinsert es2 k c2)) from rfl]
        cases he1 : ensureAndInsert ((List.lookup k es1).getD (.dict [])) rest ops with
        | none =>
          cases he2 : ensureAndInsert ((List.lookup k es2).getD (.dict [])) rest ops with
          | none => rfl
          | some r2 =>
            rw [he1, he2] at hih
            exact Option.noConfusion hih
        | some r1 =>
          cases he2 : ensureAndInsert ((List.lookup k es2).getD (.dict [])) rest ops with
          | none =>
            rw [he1, he2] at hih
            exact Option.noConfusion hih
          | some r2 =>
            rw [he1, he2] at hih
            simp only [Option.map_some'] at hih ⊢
            injection hih with hr
            rw [canonK_dict, canonK_dict, cEs_dinsert_congr hce hr hnd1 k]

/-- A section targeting the current block commutes with a section passing
through it at a key it does not assign. -/
theorem ensureAndInsert_root_comm (t : Node) (opsP opsQ : List (String × ConfigAttr))
    (kq : String) (rq : List String) (hw : wfN t = true)
    (hkq : kq ∉ opsP.map Prod.fst) :
    Option.map canonK ((ensureAndInsert t [] opsP).bind
        (fun u => ensureAndInsert u (kq :: rq) opsQ))
      = Option.map canonK ((ensureAndInsert t (kq :: rq) opsQ).bind
          (fun u => ensureAndInsert u [] opsP)) := by
  cases t with
  | leaf ty dc =>
    rw [show ensureAndInsert (.leaf ty dc) (kq :: rq) opsQ = none from rfl, Option.none_bind]
    by_cases he : opsP.isEmpty
    · rw [show ensureAndInsert (.leaf ty dc) [] opsP
          = (if opsP.isEmpty then some (.leaf ty dc) else none) from rfl, if_pos he,
        Option.some_bind,
        show ensureAndInsert (.leaf ty dc) (kq :: rq) opsQ = none from rfl]
    · rw [show ensureAndInsert (.leaf ty dc) [] opsP
          = (if opsP.isEmpty then some (.leaf ty dc) else none) from rfl, if_neg he,
        Option.none_bind]
  | dict es =>
    have hnd := (wfN_dict_unpack hw).1
    rw [show ensureAndInsert (.dict es) [] opsP = some (.dict (applyOpsN es opsP)) from rfl,
      Option.some_bind]
    have h2 : ensureAndInsert (.dict (applyOpsN es opsP)) (kq :: rq) opsQ
        = (ensureAndInsert ((List.lookup kq es).getD (.dict [])) rq opsQ).map
            (fun c => .dict (dinsert (applyOpsN es opsP) kq c)) := by
      rw [show ensureAndInsert (.dict (applyOpsN es opsP)) (kq :: rq) opsQ
          = (ensureAndInsert ((List.lookup kq (applyOpsN es opsP)).getD (.dict [])) rq opsQ).map
              (fun c => .dict (dinsert (applyOpsN es opsP) kq c)) from rfl,
        lookup_applyOpsN_ne hkq es]
    rw [h2,
      show ensureAndInsert (.dict es) (kq :: rq) opsQ
        = (ensureAndInsert ((List.lookup kq es).getD (.dict [])) rq opsQ).map
            (fun c => .dict (dinsert es kq c)) from rfl]
    cases he : ensureAndInsert ((List.lookup kq es).getD (.dict [])) rq opsQ with
    | none => rfl
    | some c =>
      simp only [Option.map_some', Option.some_bind]
      rw [show ensureAndInsert (.dict (dinsert es kq c)) [] opsP
          = some (.dict (applyOpsN (dinsert es kq c) opsP)) from rfl]
      simp only [Option.map_some']
      rw [canonK_dict, canonK_dict, applyOpsN_dinsert_comm hkq c es hnd]

/-- Two sections at distinct paths, neither assigning a field on the other's
path, commute up to canonical form — including whether the run fails. -/
theorem ensureAndInsert_comm (opsP opsQ : List (String × ConfigAttr)) :
    ∀ (P : List String) (t : Node) (Q : List String), wfN t = true → P ≠ Q →
    (∀ f ∈ opsP.map Prod.fst, ¬ ((P ++ [f]) <+: Q)) →
    (∀ f ∈ opsQ.map Prod.fst, ¬ ((Q ++ [f]) <+: P)) →
    Option.map canonK ((ensureAndInsert t P opsP).bind (fun u => ensureAndInsert u Q opsQ))
      = Option.map canonK ((ensureAndInsert t Q opsQ).bind (fun u => ensureAndInsert u P opsP)) := by
  intro P
  induction P with
  | nil =>
    intro t Q hw hne hPQ hQP
    cases Q with
    | nil => exact absurd rfl hne
    | cons kq rq =>
      have hkq : kq ∉ opsP.map Prod.fst := fun hm => hPQ kq hm ⟨rq, rfl⟩
      exact ensureAndInsert_root_comm t opsP opsQ kq rq hw hkq
  | cons kp rp ih =>
    intro t Q hw hne hPQ hQP
    cases Q with
    | nil =>
      have hkp : kp ∉ opsQ.map Prod.fst := fun hm => hQP kp hm ⟨rp, rfl⟩
      exact (ensureAndInsert_root_comm t opsQ opsP kp rp hw hkp).symm
    | cons kq rq =>
      cases t with
      | leaf ty dc =>
        rw [show ensureAndInsert (.leaf ty dc) (kp :: rp) opsP = none from rfl,
          show ensureAndInsert (.leaf ty dc) (kq :: rq) opsQ = none from rfl,
          Option.none_bind, Option.none_bind]
      | dict es =>
        have hnd := (wfN_dict_unpack hw).1
        have hwes := (wfN_dict_unpack hw).2
        by_cases hk : kp = kq
        · subst hk
          have hwc0 : wfN ((List.lookup kp es).getD (.dict [])) = true := by
            cases hl : List.lookup kp es with
            | none => rfl
            | some v => exact wfEs_lookup hwes hl
          have hne' : rp ≠ rq := fun h => hne (by rw [h])
          have hPQ' : ∀ f ∈ opsP.map Prod.fst, ¬ ((rp ++ [f]) <+: rq) := by
            intro f hf hpre
            rcases hpre with ⟨tl, htl⟩
            exact hPQ f hf ⟨tl, by rw [List.cons_append, List.cons_append, htl]⟩
          have hQP' : ∀ f ∈ opsQ.map Prod.fst, ¬ ((rq ++ [f]) <+: rp) := by
            intro f hf hpre
            rcases hpre with ⟨tl, htl⟩
            exact hQP f hf ⟨tl, by rw [List.cons_append, List.cons_append, htl]⟩
          have hih := ih ((List.lookup kp es).getD (.dict [])) rq hwc0 hne' hPQ' hQP'
          rw [show ensureAndInsert (.dict es) (kp :: rp) opsP
              = (ensureAndInsert ((List.lookup kp es).getD (.dict [])) rp opsP).map
                  (fun c => .dict (dinsert es kp c)) from rfl,
            show ensureAndInsert (.dict es) (kp :: rq) opsQ
              = (ensureAndInsert ((List.lookup kp es).getD (.dict [])) rq opsQ).map
                  (fun c => .dict (dinsert es kp c)) from rfl]
          cases e1 : ensureAndInsert ((List.lookup kp es).getD (.dict [])) rp opsP with
          | none =>
            rw [e1] at hih
            simp only [Option.none_bind, Option.map_none'] at hih ⊢
            cases e2 : ensureAndInsert ((List.lookup kp es).getD (.dict [])) rq opsQ with
            | none => rfl
            | some d1 =>
              rw [e2] at hih
              simp only [Option.some_bind, Option.map_some'] at hih ⊢
              rw [show ensureAndInsert (.dict (dinsert es kp d1)) (kp :: rp) opsP
                  = (ensureAndInsert ((List.lookup kp (dinsert es kp d1)).getD (.dict []))
                      rp opsP).map
                      (fun c => .dict (dinsert (dinsert es kp d1) kp c)) from rfl,
                lookup_dinsert_self, Option.getD_some]
              cases e3 : ensureAndInsert d1 rp opsP with
              | none => rfl
              | some b =>
                exfalso
                rw [e3] at hih
                simp only [Option.map_some'] at hih
                exact Option.noConfusion hih.symm
          | some c1 =>
            rw [e1] at hih
            simp only [Option.some_bind, Option.map_some'] at hih ⊢
            rw [show ensureAndInsert (.dict (dinsert es kp c1)) (kp :: rq) opsQ
                = (ensureAndInsert ((List.lookup kp (dinsert es kp c1)).getD (.dict []))
                    rq opsQ).map
                    (fun c => .dict (dinsert (dinsert es kp c1) kp c)) from rfl,
              lookup_dinsert_self, Option.getD_some]
            cases e2 : ensureAndInsert ((List.lookup kp es).getD (.dict [])) rq opsQ with
            | none =>
              rw [e2] at hih
              simp only [Option.none_bind, Option.map_none'] at hih ⊢
              cases e3 : ensureAndInsert c1 rq opsQ with
              | none => rfl
              | some b =>
                exfalso
                rw [e3] at hih
                simp only [Option.map_some'] at hih
                exact Option.noConfusion hih
            | some d1 =>
              rw [e2] at hih
              simp only [Option.some_bind, Option.map_some'] at hih ⊢
              rw [show ensureAndInsert (.dict (dinsert es kp d1)) (kp :: rp) opsP
                  = (ensureAndInsert ((List.lookup kp (dinsert es kp d1)).getD (.dict []))
                      rp opsP).map
                      (fun c => .dict (dinsert (dinsert es kp d1) kp c)) from rfl,
                lookup_dinsert_self, Option.getD_some]
              cases e3 : ensureAndInsert c1 rq opsQ with
              | none =>
                rw [e3] at hih
                cases e4 : ensureAndInsert d1 rp opsP with
                | none => rfl
                | some b =>
                  exfalso
                  rw [e4] at hih
                  simp only [Option.map_none', Option.map_some'] at hih
                  exact Option.noConfusion hih
              | some a =>
                rw [e3] at hih
                cases e4 : ensureAndInsert d1 rp opsP with
                | none =>
                  exfalso
                  rw [e4] at hih
                  simp only [Option.map_none', Option.map_some'] at hih
                  exact Option.noConfusion hih
                | some b =>
                  rw [e4] at hih
                  simp only [Option.map_some'] at hih ⊢
                  injection hih with hab
                  rw [dinsert_dinsert_same, dinsert_dinsert_same, canonK_dict, canonK_dict,
                    cEs_dinsert_congr rfl hab hnd kp]
        · rw [show ensureAndInsert (.dict es) (kp :: rp) opsP
              = (ensureAndInsert ((List.lookup kp es).getD (.dict [])) rp opsP).map
                  (fun c => .dict (dinsert es kp c)) from rfl,
            show ensureAndInsert (.dict es) (kq :: rq) opsQ
              = (ensureAndInsert ((List.lookup kq es).getD (.dict [])) rq opsQ).map
                  (fun c => .dict (dinsert es kq c)) from rfl]
          have hkq' : kq ≠ kp := fun h => hk h.symm
          cases e1 : ensureAndInsert ((List.lookup kp es).getD (.dict [])) rp opsP with
          | none =>
            simp only [Option.map_none', Option.none_bind]
            cases e2 : ensureAndInsert ((List.lookup kq es).getD (.dict [])) rq opsQ with
            | none => rfl
            | some c2 =>
              simp only [Option.map_some', Option.some_bind]
              rw [show ensureAndInsert (.dict (dinsert es kq c2)) (kp :: rp) opsP
                  = (ensureAndInsert ((List.lookup kp (dinsert es kq c2)).getD (.dict []))
                      rp opsP).map
                      (fun c => .dict (dinsert (dinsert es kq c2) kp c)) from rfl,
                lookup_dinsert_ne _ _ hk, e1]
              rfl
          | some c1 =>
            simp only [Option.map_some', Option.some_bind]
            rw [show ensureAndInsert (.dict (dinsert es kp c1)) (kq :: rq) opsQ
                = (ensureAndInsert ((List.lookup kq (dinsert es kp c1)).getD (.dict []))
                    rq opsQ).map
                    (fun c => .dict (dinsert (dinsert es kp c1) kq c)) from rfl,
              lookup_dinsert_ne _ _ hkq']
            cases e2 : ensureAndInsert ((List.lookup kq es).getD (.dict [])) rq opsQ with
            | none => rfl
            | some c2 =>
              simp only [Option.map_some', Option.some_bind]
              rw [show ensureAndInsert (.dict (dinsert es kq c2)) (kp :: rp) opsP
                  = (ensureAndInsert ((List.lookup kp (dinsert es kq c2)).getD (.dict []))
                      rp opsP).map
                      (fun c => .dict (dinsert (dinsert es kq c2) kp c)) from rfl,
                lookup_dinsert_ne _ _ hk, e1]
              simp only [Option.map_some']
              rw [canonK_dict, canonK_dict]
              rw [cEs_of_perm (dinsert_comm_perm es c1 c2 hk)
                (nodup_keys_dinsert _ _ _ (nodup_keys_dinsert _ _ _ hnd))]

/-- Distinct registered names always give distinct tree paths (`@base` maps
to the root, other names to their non-empty dot-split). -/
theorem sectionPath_inj {n1 n2 : String} (h : n1 ≠ n2) : sectionPath n1 ≠ sectionPath n2 := by
  unfold sectionPath
  by_cases h1 : n1 = "@base"
  · by_cases h2 : n2 = "@base"
    · exact absurd (h1.trans h2.symm) h
    · rw [if_pos (show (n1 == "@base") = true by simp [h1]),
        if_neg (show ¬ ((n2 == "@base") = true) by simp [h2])]
      exact fun hh => splitDots_ne_nil n2 hh.symm
  · by_cases h2 : n2 = "@base"
    · rw [if_neg (show ¬ ((n1 == "@base") = true) by simp [h1]),
        if_pos (show (n2 == "@base") = true by simp [h2])]
      exact fun hh => splitDots_ne_nil n1 hh
    · rw [if_neg (show ¬ ((n1 == "@base") = true) by simp [h1]),
        if_neg (show ¬ ((n2 == "@base") = true) by simp [h2])]
      exact fun hh => h (splitDots_inj hh)

/-- The state relation maintained between two permuted runs: canonically
equal trees, permuted import lists. -/
def SRel (a b : StubState) : Prop :=
  canonK a.tree = canonK b.tree ∧ List.Perm a.imports b.imports
    ∧ List.Perm a.typingImports b.typingImports

theorem SRel_refl (a : StubState) : SRel a a :=
  ⟨rfl, List.Perm.refl _, List.Perm.refl _⟩

/-- Relation between the optional outcomes of two runs: they fail together
or succeed with related, well-formed states. -/
def stubOK : Option StubState → Option StubState → Prop
  | none, none => True
  | some a, some b => SRel a b ∧ wfN a.tree = true ∧ wfN b.tree = true
  | _, _ => False

theorem stubOK_trans {o1 o2 o3 : Option StubState} (h1 : stubOK o1 o2) (h2 : stubOK o2 o3) :
    stubOK o1 o3 := by
  cases o1 with
  | none =>
    cases o2 with
    | none =>
      cases o3 with
      | none => trivial
      | some c => exact h2
    | some b => exact h1.elim
  | some a =>
    cases o2 with
    | none => exact h1.elim
    | some b =>
      cases o3 with
      | none => exact h2.elim
      | some c =>
        exact ⟨⟨h1.1.1.trans h2.1.1, h1.1.2.1.trans h2.1.2.1, h1.1.2.2.trans h2.1.2.2⟩,
          h1.2.1, h2.2.2⟩

theorem perm_append_swap2 {α : Type} (s a b : List α) :
    List.Perm ((s ++ a) ++ b) ((s ++ b) ++ a) := by
  rw [List.append_assoc, List.append_assoc]
  exact List.Perm.append_left s (List.perm_append_comm)

theorem perm_append_swap4 {α : Type} (s a b c d : List α) :
    List.Perm ((((s ++ a) ++ b) ++ c) ++ d) ((((s ++ c) ++ d) ++ a) ++ b) := by
  have h1 : (((s ++ a) ++ b) ++ c) ++ d = s ++ ((a ++ b) ++ (c ++ d)) := by
    simp [List.append_assoc]
  have h2 : (((s ++ c) ++ d) ++ a) ++ b = s ++ ((c ++ d) ++ (a ++ b)) := by
    simp [List.append_assoc]
  rw [h1, h2]
  exact List.Perm.append_left s List.perm_append_comm

/-- Processing the same section from related states gives related
outcomes. -/
theorem processSection_OK {a b : StubState} (p : String × SectionClass)
    (hw1 : wfN a.tree = true) (hw2 : wfN b.tree = true) (hr : SRel a b) :
    stubOK (processSection a p) (processSection b p) := by
  have hmap := ensureAndInsert_congr (sectionPath p.1) a.tree b.tree (classOps p.2) hw1 hw2 hr.1
  unfold processSection
  cases e1 : ensureAndInsert a.tree (sectionPath p.1) (classOps p.2) with
  | none =>
    cases e2 : ensureAndInsert b.tree (sectionPath p.1) (classOps p.2) with
    | none => trivial
    | some t2 =>
      rw [e1, e2] at hmap
      exact Option.noConfusion hmap
  | some t1 =>
    cases e2 : ensureAndInsert b.tree (sectionPath p.1) (classOps p.2) with
    | none =>
      rw [e1, e2] at hmap
      exact Option.noConfusion hmap
    | some t2 =>
      rw [e1, e2] at hmap
      simp only [Option.map_some'] at hmap
      injection hmap with ht
      refine ⟨⟨ht, ?_, ?_⟩, wfN_ensureAndInsert _ _ _ _ e1 hw1,
        wfN_ensureAndInsert _ _ _ _ e2 hw2⟩
      · exact (hr.2.1.append (List.Perm.refl _)).append (List.Perm.refl _)
      · exact hr.2.2.append (List.Perm.refl _)

/-- Two clash-free sections processed in either order from the same state
give related outcomes. -/
theorem processSection_swap (st : StubState) (p q : String × SectionClass)
    (hw : wfN st.tree = true)
    (hne : sectionPath p.1 ≠ sectionPath q.1)
    (hpq : ∀ f ∈ (classOps p.2).map Prod.fst, ¬ ((sectionPath p.1 ++ [f]) <+: sectionPath q.1))
    (hqp : ∀ f ∈ (classOps q.2).map Prod.fst, ¬ ((sectionPath q.1 ++ [f]) <+: sectionPath p.1)) :
    stubOK ((processSection st p).bind (fun u => processSection u q))
      ((processSection st q).bind (fun u => processSection u p)) := by
  have hcomm := ensureAndInsert_comm (classOps p.2) (classOps q.2) (sectionPath p.1) st.tree
    (sectionPath q.1) hw hne hpq hqp
  unfold processSection
  cases e1 : ensureAndInsert st.tree (sectionPath p.1) (classOps p.2) with
  | none =>
    rw [e1] at hcomm
    simp only [Option.none_bind, Option.map_none'] at hcomm ⊢
    cases e2 : ensureAndInsert st.tree (sectionPath q.1) (classOps q.2) with
    | none => trivial
    | some tq =>
      rw [e2] at hcomm
      simp only [Option.some_bind, Option.map_some'] at hcomm ⊢
      cases e3 : ensureAndInsert tq (sectionPath p.1) (classOps p.2) with
      | none => trivial
      | some tqp =>
        exfalso
        rw [e3] at hcomm
        simp only [Option.map_some'] at hcomm
        exact Option.noConfusion hcomm.symm
  | some tp =>
    rw [e1] at hcomm
    simp only [Option.some_bind, Option.map_some'] at hcomm ⊢
    cases e2 : ensureAndInsert st.tree (sectionPath q.1) (classOps q.2) with
    | none =>
      rw [e2] at hcomm
      simp only [Option.none_bind, Option.map_none'] at hcomm ⊢
      cases e3 : ensureAndInsert tp (sectionPath q.1) (classOps q.2) with
      | none => trivial
      | some tpq =>
        exfalso
        rw [e3] at hcomm
        simp only [Option.map_some'] at hcomm
        exact Option.noConfusion hcomm
    | some tq =>
      rw [e2] at hcomm
      simp only [Option.some_bind, Option.map_some'] at hcomm ⊢
      cases e3 : ensureAndInsert tp (sectionPath q.1) (classOps q.2) with
      | none =>
        rw [e3] at hcomm
        cases e4 : ensureAndInsert tq (sectionPath p.1) (classOps p.2) with
        | none => trivial
        | some tqp =>
          exfalso
          rw [e4] at hcomm
          simp only [Option.map_none', Option.map_some'] at hcomm
          exact Option.noConfusion hcomm
      | some tpq =>
        rw [e3] at hcomm
        cases e4 : ensureAndInsert tq (sectionPath p.1) (classOps p.2) with
        | none =>
          exfalso
          rw [e4] at hcomm
          simp only [Option.map_none', Option.map_some'] at hcomm
          exact Option.noConfusion hcomm
        | some tqp =>
          rw [e4] at hcomm
          simp only [Option.map_some'] at hcomm
          injection hcomm with ht
          refine ⟨⟨ht, ?_, ?_⟩, ?_, ?_⟩
          · exact perm_append_swap4 st.imports _ _ _ _
          · exact perm_append_swap2 st.typingImports _ _
          · exact wfN_ensureAndInsert _ _ _ _ e3 (wfN_ensureAndInsert _ _ _ _ e1 hw)
          · exact wfN_ensureAndInsert _ _ _ _ e4 (wfN_ensureAndInsert _ _ _ _ e2 hw)

/-- `output_stub`'s loop over the registered sections, as a state fold. -/
def buildState (secs : List (String × SectionClass)) : Option StubState :=
  List.foldlM processSection ⟨.dict [], [], []⟩ secs

/-- Folding the same section list from related states gives related
outcomes. -/
theorem foldlM_processSection_congr :
    ∀ (l : List (String × SectionClass)) (a b : StubState),
    wfN a.tree = true → wfN b.tree = true → SRel a b →
    stubOK (List.foldlM processSection a l) (List.foldlM processSection b l) := by
  intro l
  induction l with
  | nil =>
    intro a b hw1 hw2 hr
    simp only [List.foldlM_nil]
    exact ⟨hr, hw1, hw2⟩
  | cons p rest ih =>
    intro a b hw1 hw2 hr
    have hstep := processSection_OK p hw1 hw2 hr
    simp only [List.foldlM_cons]
    cases e1 : processSection a p with
    | none =>
      cases e2 : processSection b p with
      | none => exact trivial
      | some b' => rw [e1, e2] at hstep; exact hstep.elim
    | some a' =>
      cases e2 : processSection b p with
      | none => rw [e1, e2] at hstep; exact hstep.elim
      | some b' =>
        rw [e1, e2] at hstep
        exact ih a' b' hstep.2.1 hstep.2.2 hstep.1

/-- Related optional states remain related after folding the same tail. -/
theorem stubOK_bind_fold {o1 o2 : Option StubState} (l : List (String × SectionClass))
    (h : stubOK o1 o2) :
    stubOK (o1.bind (fun st => List.foldlM processSection st l))
      (o2.bind (fun st => List.foldlM processSection st l)) := by
  cases o1 with
  | none =>
    cases o2 with
    | none => exact trivial
    | some b => exact h.elim
  | some a =>
    cases o2 with
    | none => exact h.elim
    | some b =>
      exact foldlM_processSection_congr l a b h.2.1 h.2.2 h.1

/-- The main permutation invariance of `output_stub`'s loop: over permuted
section lists with distinct names and no cross-section field/namespace
clashes, the two runs fail together or build canonically-equal trees and
permuted import lists. -/
theorem foldlM_processSection_perm {l1 l2 : List (String × SectionClass)}
    (hp : List.Perm l1 l2) :
    (l1.map Prod.fst).Nodup →
    (∀ p ∈ l1, ∀ q ∈ l1, ∀ f ∈ (classOps p.2).map Prod.fst,
        ¬ ((sectionPath p.1 ++ [f]) <+: sectionPath q.1)) →
    ∀ a b : StubState, wfN a.tree = true → wfN b.tree = true → SRel a b →
    stubOK (List.foldlM processSection a l1) (List.foldlM processSection b l2) := by
  induction hp with
  | nil =>
    intro _ _ a b hw1 hw2 hr
    simp only [List.foldlM_nil]
    exact ⟨hr, hw1, hw2⟩
  | cons p hp' ih =>
    intro hnd hcf a b hw1 hw2 hr
    have hstep := processSection_OK p hw1 hw2 hr
    simp only [List.foldlM_cons]
    cases e1 : processSection a p with
    | none =>
      cases e2 : processSection b p with
      | none => exact trivial
      | some b' => rw [e1, e2] at hstep; exact hstep.elim
    | some a' =>
      cases e2 : processSection b p with
      | none => rw [e1, e2] at hstep; exact hstep.elim
      | some b' =>
        rw [e1, e2] at hstep
        simp only [List.map_cons, List.nodup_cons] at hnd
        exact ih hnd.2
          (fun p' hp'' q hq f hf =>
            hcf p' (List.mem_cons_of_mem _ hp'') q (List.mem_cons_of_mem _ hq) f hf)
          a' b' hstep.2.1 hstep.2.2 hstep.1
  | swap x y l =>
    intro hnd hcf a b hw1 hw2 hr
    have hxy : y.1 ≠ x.1 := by
      simp only [List.map_cons, List.nodup_cons, List.mem_cons] at hnd
      push_neg at hnd
      exact hnd.1.1
    have hyx : sectionPath y.1 ≠ sectionPath x.1 := sectionPath_inj hxy
    have hmy : y ∈ y :: x :: l := List.mem_cons_self _ _
    have hmx : x ∈ y :: x :: l := List.mem_cons_of_mem _ (List.mem_cons_self _ _)
    have hswap := processSection_swap b y x hw2 hyx
      (fun f hf => hcf y hmy x hmx f hf) (fun f hf => hcf x hmx y hmy f hf)
    have hcong := foldlM_processSection_congr (y :: x :: l) a b hw1 hw2 hr
    have hfin := stubOK_bind_fold l hswap
    apply stubOK_trans hcong
    have hl : List.foldlM processSection b (y :: x :: l)
        = ((processSection b y).bind (fun u => processSection u x)).bind
            (fun st => List.foldlM processSection st l) := by
      simp only [List.foldlM_cons]
      cases processSection b y with
      | none => rfl
      | some u => rfl
    have hr2 : List.foldlM processSection b (x :: y :: l)
        = ((processSection b x).bind (fun u => processSection u y)).bind
            (fun st => List.foldlM processSection st l) := by
      simp only [List.foldlM_cons]
      cases processSection b x with
      | none => rfl
      | some u => rfl
    rw [hl, hr2]
    exact hfin
  | trans h1 h2 ih1 ih2 =>
    intro hnd hcf a b hw1 hw2 hr
    have hnd2 : (List.map Prod.fst _).Nodup := ((h1.map Prod.fst).nodup_iff).mp hnd
    have hcf2 := fun p hp q hq f hf =>
      hcf p (h1.mem_iff.mpr hp) q (h1.mem_iff.mpr hq) f hf
    exact stubOK_trans (ih1 hnd hcf a b hw1 hw2 hr)
      (ih2 hnd2 hcf2 b b hw2 hw2 (SRel_refl b))

mutual
/-- No sort-key ties anywhere in the tree: within each block, the sort keys
of the entries (leaf `f` compares as `"_" ++ f`, namespace `g` as `g`) are
pairwise distinct.  A tie — a leaf `f` next to a namespace `"_" ++ f` —
makes the emitted order depend on registration order (the sort is stable). -/
def noTiesN : Node → Bool
  | .leaf _ _ => true
  | .dict es => distinctB (es.map sKey) && noTiesEntries es

def noTiesEntries : List (String × Node) → Bool
  | [] => true
  | (_, v) :: rest => noTiesN v && noTiesEntries rest
end

theorem noTiesN_dict_unpack {es : List (String × Node)} (h : noTiesN (.dict es) = true) :
    (es.map sKey).Nodup ∧ noTiesEntries es = true := by
  rw [show noTiesN (.dict es) = (distinctB (es.map sKey) && noTiesEntries es) from rfl] at h
  rcases Bool.and_eq_true _ _ ▸ h with ⟨h1, h2⟩
  exact ⟨(distinctB_iff _).mp h1, h2⟩

theorem noTiesEntries_mem : ∀ {es : List (String × Node)} {k : String} {v : Node},
    noTiesEntries es = true → (k, v) ∈ es → noTiesN v = true := by
  intro es
  induction es with
  | nil => intro k v _ hm; simp at hm
  | cons p rest ih =>
    intro k v h hm
    obtain ⟨k0, v0⟩ := p
    rw [show noTiesEntries ((k0, v0) :: rest) = (noTiesN v0 && noTiesEntries rest) from rfl] at h
    rcases Bool.and_eq_true _ _ ▸ h with ⟨h1, h2⟩
    rcases List.mem_cons.mp hm with hm | hm
    · injection hm with hk hv
      rw [← hv] at h1
      exact h1
    · exact ih h2 hm

mutual
/-- Tree size, for induction over lookups into blocks. -/
def nodeSize : Node → Nat
  | .leaf _ _ => 1
  | .dict es => 1 + entriesSize es

def entriesSize : List (String × Node) → Nat
  | [] => 0
  | (_, v) :: rest => nodeSize v + entriesSize rest
end

theorem nodeSize_lt_of_mem : ∀ {es : List (String × Node)} {k : String} {v : Node},
    (k, v) ∈ es → nodeSize v < nodeSize (.dict es) := by
  intro es
  induction es with
  | nil => intro k v hm; simp at hm
  | cons p rest ih =>
    intro k v hm
    obtain ⟨k0, v0⟩ := p
    rcases List.mem_cons.mp hm with hm | hm
    · injection hm with hk hv
      subst hv
      rw [show nodeSize (.dict ((k0, v) :: rest)) = 1 + (nodeSize v + entriesSize rest) from rfl]
      omega
    · have := ih hm
      rw [show nodeSize (.dict rest) = 1 + entriesSize rest from rfl] at this
      rw [show nodeSize (.dict ((k0, v0) :: rest))
          = 1 + (nodeSize v0 + entriesSize rest) from rfl]
      omega

theorem isDictN_canonK (v : Node) : isDictN (canonK v) = isDictN v := by
  cases v <;> rfl

theorem isDictN_canonNode (v : Node) : isDictN (canonNode v) = isDictN v := by
  cases v <;> rfl

theorem sKey_canonK (k : String) (v : Node) : sKey (k, canonK v) = sKey (k, v) := by
  unfold sKey
  rw [isDictN_canonK]

theorem sKey_canonNode (k : String) (v : Node) : sKey (k, canonNode v) = sKey (k, v) := by
  unfold sKey
  rw [isDictN_canonNode]

theorem map_sKey_canonKEs (es : List (String × Node)) :
    (canonKEs es).map sKey = es.map sKey := by
  induction es with
  | nil => rfl
  | cons p rest ih =>
    obtain ⟨k, v⟩ := p
    rw [show canonKEs ((k, v) :: rest) = (k, canonK v) :: canonKEs rest from rfl]
    simp only [List.map_cons, ih, sKey_canonK]

theorem map_sKey_canonEntries (es : List (String × Node)) :
    (canonEntries es).map sKey = es.map sKey := by
  induction es with
  | nil => rfl
  | cons p rest ih =>
    obtain ⟨k, v⟩ := p
    rw [show canonEntries ((k, v) :: rest) = (k, canonNode v) :: canonEntries rest from rfl]
    simp only [List.map_cons, ih, sKey_canonNode]

theorem keys_canonEntries (es : List (String × Node)) :
    (canonEntries es).map Prod.fst = es.map Prod.fst := by
  rw [canonEntries_eq_map, List.map_map]
  rfl

theorem lookup_canonEntries (k : String) (es : List (String × Node)) :
    List.lookup k (canonEntries es) = Option.map canonNode (List.lookup k es) := by
  induction es with
  | nil => rfl
  | cons p rest ih =>
    obtain ⟨k0, v0⟩ := p
    rw [show canonEntries ((k0, v0) :: rest) = (k0, canonNode v0) :: canonEntries rest from rfl]
    by_cases hk : k = k0
    · simp [List.lookup, hk]
    · have hk' : (k == k0) = false := by simp [hk]
      simp [List.lookup, hk']
      exact ih

theorem lookup_append_skip {β : Type} {k : String} :
    ∀ {s : List (String × β)} (t : List (String × β)), k ∉ s.map Prod.fst →
      List.lookup k (s ++ t) = List.lookup k t := by
  intro s
  induction s with
  | nil => intro t _; rfl
  | cons p rest ih =>
    intro t hk
    obtain ⟨k0, v0⟩ := p
    simp only [List.map_cons, List.mem_cons] at hk
    push_neg at hk
    have hb : (k == k0) = false := by simp [hk.1]
    rw [List.cons_append]
    simp only [List.lookup, hb]
    exact ih t hk.2

theorem lookup_append_cons_ne {β : Type} {k k' : String} {v : β} (h : k' ≠ k) :
    ∀ (s t : List (String × β)),
      List.lookup k' (s ++ (k, v) :: t) = List.lookup k' (s ++ t) := by
  intro s
  induction s with
  | nil =>
    intro t
    have hb : (k' == k) = false := by simp [h]
    simp only [List.nil_append, List.lookup, hb]
  | cons p rest ih =>
    intro t
    obtain ⟨k0, v0⟩ := p
    rw [List.cons_append, List.cons_append]
    by_cases hb : k' = k0
    · have hbt : (k' == k0) = true := by simp [hb]
      simp [List.lookup, hbt]
    · have hbf : (k' == k0) = false := by simp [hb]
      simp only [List.lookup, hbf]
      exact ih t

/-- Association lists with distinct keys, permuted key sets and equal
lookups are permutations of each other. -/
theorem assoc_perm_of_lookup {β : Type} :
    ∀ (l1 l2 : List (String × β)), (l1.map Prod.fst).Nodup →
      List.Perm (l1.map Prod.fst) (l2.map Prod.fst) →
      (∀ k, List.lookup k l1 = List.lookup k l2) → List.Perm l1 l2 := by
  intro l1
  induction l1 with
  | nil =>
    intro l2 _ hkeys _
    have hk0 : List.Perm ([] : List String) (l2.map Prod.fst) := hkeys
    have : l2.map Prod.fst = [] := hk0.nil_eq.symm
    rw [List.map_eq_nil] at this
    rw [this]
  | cons p t1 ih =>
    intro l2 hnd hkeys hlk
    obtain ⟨k, v⟩ := p
    have hv : List.lookup k l2 = some v := by
      rw [← hlk k]
      simp [List.lookup]
    have hm : (k, v) ∈ l2 := lookup_mem hv
    rcases List.append_of_mem hm with ⟨s, t, rfl⟩
    simp only [List.map_cons, List.nodup_cons] at hnd
    have hnd2 : ((s ++ (k, v) :: t).map Prod.fst).Nodup := hkeys.nodup_iff.mp
      (by rw [List.map_cons]; exact List.nodup_cons.mpr hnd)
    have hks : k ∉ s.map Prod.fst ∧ k ∉ t.map Prod.fst := by
      rw [List.map_append, List.map_cons] at hnd2
      have h1 := (List.nodup_cons.mp (List.nodup_middle.mp hnd2)).1
      simp only [List.mem_append] at h1
      push_neg at h1
      exact h1
    have hkeys' : List.Perm (t1.map Prod.fst) ((s ++ t).map Prod.fst) := by
      have h1 : List.Perm ((s ++ (k, v) :: t).map Prod.fst)
          (k :: ((s ++ t).map Prod.fst)) := by
        rw [List.map_append, List.map_cons, List.map_append]
        exact List.perm_middle
      have h2 := hkeys.trans h1
      rw [List.map_cons] at h2
      exact h2.cons_inv
    have hlk' : ∀ k', List.lookup k' t1 = List.lookup k' (s ++ t) := by
      intro k'
      by_cases hkk : k' = k
      · subst hkk
        rw [lookup_none_of_not_mem (by
          intro hmem
          exact hnd.1 hmem)]
        rw [lookup_append_skip _ hks.1, lookup_none_of_not_mem hks.2]
      · have h1 : List.lookup k' ((k, v) :: t1) = List.lookup k' t1 := by
          have hb : (k' == k) = false := by simp [hkk]
          simp [List.lookup, hb]
        rw [← h1, hlk k']
        exact lookup_append_cons_ne hkk s t
    have htail := ih (s ++ t) hnd.2 hkeys' hlk'
    exact (htail.cons (k, v)).trans List.perm_middle.symm

/-- Trees with equal canonical form render identically (same `canonNode`),
provided every block is tie-free: the per-level stable sort then has
pairwise-distinct sort keys, so it no longer depends on entry positions. -/
theorem canonNode_congr : ∀ (n : Nat) (t1 t2 : Node), nodeSize t1 ≤ n →
    wfN t1 = true → wfN t2 = true → canonK t1 = canonK t2 →
    noTiesN (canonK t1) = true → canonNode t1 = canonNode t2 := by
  intro n
  induction n with
  | zero =>
    intro t1 t2 hsz _ _ _ _
    exfalso
    cases t1 with
    | leaf ty dc =>
      rw [show nodeSize (.leaf ty dc) = 1 from rfl] at hsz
      omega
    | dict es =>
      rw [show nodeSize (.dict es) = 1 + entriesSize es from rfl] at hsz
      omega
  | succ n ihn =>
    intro t1 t2 hsz hw1 hw2 hck hties
    cases t1 with
    | leaf ty dc =>
      cases t2 with
      | leaf ty2 dc2 =>
        have h : Node.leaf ty dc = Node.leaf ty2 dc2 := by
          rw [show canonK (.leaf ty dc) = .leaf ty dc from rfl,
            show canonK (.leaf ty2 dc2) = .leaf ty2 dc2 from rfl] at hck
          exact hck
        rw [h]
      | dict es2 =>
        rw [show canonK (.leaf ty dc) = .leaf ty dc from rfl, canonK_dict] at hck
        exact Node.noConfusion hck
    | dict es1 =>
      cases t2 with
      | leaf ty2 dc2 =>
        rw [canonK_dict, show canonK (.leaf ty2 dc2) = .leaf ty2 dc2 from rfl] at hck
        exact Node.noConfusion hck
      | dict es2 =>
        rw [canonK_dict, canonK_dict] at hck
        have hce : cEs es1 = cEs es2 := by injection hck
        have hnd1 := (wfN_dict_unpack hw1).1
        have hnd2 := (wfN_dict_unpack hw2).1
        have hwe1 := (wfN_dict_unpack hw1).2
        have hwe2 := (wfN_dict_unpack hw2).2
        have hts : ((cEs es1).map sKey).Nodup ∧ noTiesEntries (cEs es1) = true := by
          rw [canonK_dict] at hties
          exact noTiesN_dict_unpack hties
        have hszd : nodeSize (.dict es1) ≤ n + 1 := hsz
        have hperm : List.Perm (canonEntries es1) (canonEntries es2) := by
          apply assoc_perm_of_lookup
          · rw [keys_canonEntries]
            exact hnd1
          · rw [keys_canonEntries, keys_canonEntries]
            exact keys_perm_of_cEs hce
          · intro k
            rw [lookup_canonEntries, lookup_canonEntries]
            have hmc := cEs_lookup_congr hce hnd1 k
            cases hl1 : List.lookup k es1 with
            | none =>
              cases hl2 : List.lookup k es2 with
              | none => rfl
              | some v2 =>
                rw [hl1, hl2] at hmc
                exact Option.noConfusion hmc
            | some v1 =>
              cases hl2 : List.lookup k es2 with
              | none =>
                rw [hl1, hl2] at hmc
                exact Option.noConfusion hmc
              | some v2 =>
                rw [hl1, hl2] at hmc
                simp only [Option.map_some'] at hmc ⊢
                injection hmc with hv
                have hm1 : (k, v1) ∈ es1 := lookup_mem hl1
                have hm2 : (k, v2) ∈ es2 := lookup_mem hl2
                have hsz1 : nodeSize v1 ≤ n := by
                  have h1 := nodeSize_lt_of_mem hm1
                  omega
                have htv : noTiesN (canonK v1) = true := by
                  have hmk : (k, canonK v1) ∈ canonKEs es1 := by
                    rw [canonKEs_eq_map]
                    exact List.mem_map.mpr ⟨(k, v1), hm1, rfl⟩
                  have hmc2 : (k, canonK v1) ∈ cEs es1 :=
                    ((sortByKey_perm (fun p : String × Node => p.1) (canonKEs es1)).mem_iff).mpr hmk
                  exact noTiesEntries_mem hts.2 hmc2
                rw [ihn v1 v2 hsz1 (wfEs_mem hwe1 hm1) (wfEs_mem hwe2 hm2) hv htv]
        rw [show canonNode (.dict es1) = .dict (sortChildren (canonEntries es1)) from rfl,
          show canonNode (.dict es2) = .dict (sortChildren (canonEntries es2)) from rfl]
        have heq : sortChildren (canonEntries es1) = sortChildren (canonEntries es2) := by
          apply sorted_key_nodup_eq sKey
          · exact ((List.perm_insertionSort _ _).trans hperm).trans
              (List.perm_insertionSort _ _).symm
          · exact List.sorted_insertionSort _ _
          · exact List.sorted_insertionSort _ _
          · have hp1 : List.Perm ((sortChildren (canonEntries es1)).map sKey)
                (es1.map sKey) := by
              have h := (List.perm_insertionSort (keyRel sKey) (canonEntries es1)).map sKey
              rwa [map_sKey_canonEntries] at h
            apply hp1.nodup_iff.mpr
            have hp2 : List.Perm ((cEs es1).map sKey) (es1.map sKey) := by
              have h := (sortByKey_perm (fun p : String × Node => p.1) (canonKEs es1)).map sKey
              rwa [map_sKey_canonKEs] at h
            exact hp2.nodup_iff.mp hts.1
        rw [heq]

/-- `sorted(set(l))` depends only on the multiset of collected names. -/
theorem sortedSet_perm {l1 l2 : List String} (h : List.Perm l1 l2) :
    sortedSet l1 = sortedSet l2 := by
  unfold sortedSet
  apply sorted_key_nodup_eq id
  · exact ((List.perm_insertionSort _ _).trans h.dedup).trans
      (List.perm_insertionSort _ _).symm
  · exact List.sorted_insertionSort _ _
  · exact List.sorted_insertionSort _ _
  · rw [List.map_id]
    exact (List.perm_insertionSort (keyRel id) l1.dedup).nodup_iff.mpr (List.nodup_dedup l1)

/-! ### Claim theorem C6 -/

/-- C6 (amended): stub generation does not depend on the registration
order.  For two runs of `output_stub` over permuted lists of the same
registered sections — with pairwise-distinct section names, no section
assigning a field that is also the next path segment of another section's
dotted path below it (a leaf/namespace clash makes one order fail where the
other succeeds), and no sort-key tie in the tree the run builds (no block
holding both a leaf `f` and a namespace `"_" ++ f`) — the emitted stub text
is byte-identical.  The type renderer (`type_to_code_str`,
`get_typing_imports`) is modelled as a Lean function of the descriptor
alone, so its purity holds by construction. -/
theorem stub_deterministic (basePath : String) (secs1 secs2 : List (String × SectionClass))
    (s : String)
    (hperm : List.Perm secs1 secs2)
    (hnames : (secs1.map Prod.fst).Nodup)
    (hclash : ∀ p ∈ secs1, ∀ q ∈ secs1, ∀ f ∈ (classOps p.2).map Prod.fst,
        ¬ ((sectionPath p.1 ++ [f]) <+: sectionPath q.1))
    (hties : (buildState secs1).all (fun st => noTiesN (canonK st.tree)) = true)
    (hrun : output_stub basePath secs1 = some s) :
    output_stub basePath secs2 = some s := by
  have hOK := foldlM_processSection_perm hperm hnames hclash
    ⟨.dict [], [], []⟩ ⟨.dict [], [], []⟩ rfl rfl (SRel_refl _)
  rw [show List.foldlM processSection (⟨.dict [], [], []⟩ : StubState) secs1
      = buildState secs1 from rfl,
    show List.foldlM processSection (⟨.dict [], [], []⟩ : StubState) secs2
      = buildState secs2 from rfl] at hOK
  rw [show output_stub basePath secs1 = (buildState secs1).map (fun st =>
      DISCLAIMER basePath
      ++ "from typing import " ++ joinSep ", " (sortedSet st.typingImports) ++ "\n"
      ++ joinSep "\n" (sortedSet st.imports) ++ "\n\n"
      ++ fModel "Config" st.tree 0
      ++ STUB_BASE) from rfl] at hrun
  rw [show output_stub basePath secs2 = (buildState secs2).map (fun st =>
      DISCLAIMER basePath
      ++ "from typing import " ++ joinSep ", " (sortedSet st.typingImports) ++ "\n"
      ++ joinSep "\n" (sortedSet st.imports) ++ "\n\n"
      ++ fModel "Config" st.tree 0
      ++ STUB_BASE) from rfl]
  cases b1 : buildState secs1 with
  | none =>
    rw [b1] at hrun
    exact Option.noConfusion hrun
  | some st1 =>
    rw [b1] at hrun hties
    cases b2 : buildState secs2 with
    | none =>
      exfalso
      rw [b1, b2] at hOK
      exact hOK.elim
    | some st2 =>
      rw [b1, b2] at hOK
      obtain ⟨⟨htree, him, hti⟩, hw1, hw2⟩ := hOK
      simp only [Option.map_some'] at hrun ⊢
      injection hrun with ha
      rw [← ha]
      have htie1 : noTiesN (canonK st1.tree) = true := hties
      have hcn : canonNode st1.tree = canonNode st2.tree :=
        canonNode_congr (nodeSize st1.tree) st1.tree st2.tree (le_refl _) hw1 hw2 htree htie1
      have h1 : sortedSet st2.typingImports = sortedSet st1.typingImports :=
        (sortedSet_perm hti).symm
      have h2 : sortedSet st2.imports = sortedSet st1.imports :=
        (sortedSet_perm him).symm
      have h3 : fModel "Config" st2.tree 0 = fModel "Config" st1.tree 0 := by
        unfold fModel
        rw [hcn]
      rw [h1, h2, h3]

/-- Witness for C6: sections `a` (attribute `x : int`) and `b` (empty)
registered in either order emit the same stub text. -/
theorem stub_deterministic_witness :
    output_stub "config.py" [("b", ⟨[], [], []⟩), ("a", ⟨[("x", ⟨"int", "builtins"⟩)], [], []⟩)]
      = some "# This file was generated automatically\n# Do not edit by hand, your changes will be lost\n# Regenerate by running `python -m foliconf config.py`\nfrom typing import \n\n\nclass Config:\n    class a:\n        x: int\n    class b:\n        ...\ndef config_class(name): ...\ndef config_from_dict(config_dict: dict[str, Any]) -> Config: ...\ndef make_config() -> Config: ...\ndef update_config(config: Config, config_dict: dict[str, Any]) -> Config: ...\ndef config_to_dict(config: Config) -> dict[str, Any]: ...\n" :=
  stub_deterministic "config.py"
    [("a", ⟨[("x", ⟨"int", "builtins"⟩)], [], []⟩), ("b", ⟨[], [], []⟩)]
    [("b", ⟨[], [], []⟩), ("a", ⟨[("x", ⟨"int", "builtins"⟩)], [], []⟩)]
    "# This file was generated automatically\n# Do not edit by hand, your changes will be lost\n# Regenerate by running `python -m foliconf config.py`\nfrom typing import \n\n\nclass Config:\n    class a:\n        x: int\n    class b:\n        ...\ndef config_class(name): ...\ndef config_from_dict(config_dict: dict[str, Any]) -> Config: ...\ndef make_config() -> Config: ...\ndef update_config(config: Config, config_dict: dict[str, Any]) -> Config: ...\ndef config_to_dict(config: Config) -> dict[str, Any]: ...\n"
    (List.Perm.swap (("b", ⟨[], [], []⟩) : String × SectionClass)
      (("a", ⟨[("x", ⟨"int", "builtins"⟩)], [], []⟩) : String × SectionClass) [])
    (by decide)
    (by decide)
    (by set_option maxRecDepth 10000 in decide)
    (by set_option maxRecDepth 10000 in decide)
